import Mathlib

/-!
# Skottie utilities: property capture and slot substitution

A shallow embedding of `modules/skottie/utils/SkottieUtils.cpp`.

* C strings (`const char*`) are `Option Str`: `none` is the null pointer, `some s` the
  characters before the terminator.  `std::string` is `Str`.
* `std::unordered_map<std::string, std::vector<...>>` is an association list with one entry
  per key (`PropMap`), in insertion order.
* Property handles are external objects with `get()` / `set(v)`.  They are modelled as
  addresses into a per-kind store (`HandleStore`) that also records every call applied.
* Undefined behaviour and failed assertions (reading through a null pointer, `front()` of an
  empty vector, `SkASSERT`) are `none` in an `Option` result.
-/

namespace SkottieUtils

/-! ## Strings, values and handles -/

/-- The characters of a string (`std::string`, or a C string before its terminator). -/
abbrev Str := List Char

/-- Source: `strlen`. -/
def strlen (s : Str) : Nat := s.length

/-- Subtraction of two `size_t` values: wraps modulo `2 ^ 64` when `b` exceeds `a`. -/
def sizeSub (a b : Nat) : Nat :=
  if b ≤ a then a - b else a + 2 ^ 64 - b

/-- Source: `std::string::substr(pos, count)`: the characters `[pos, pos + count)`, clipped to
the end of the string (the only call site has `pos = 0`, which never throws). -/
def substr (s : Str) (pos count : Nat) : Str :=
  (s.drop pos).take count

/-- Modelled from the spec: `SkStrStartsWith` (declared in `SkString.h`, not in this file),
"the node name starts with a configured prefix"; both arguments are non-null strings. -/
def SkStrStartsWith (string prefixStr : Str) : Bool :=
  prefixStr.isPrefixOf string

/-- A `float` / `SkScalar`.  The code only stores and copies such values, so the carrier is
left uninterpreted. -/
abbrev SkScalar := Int

/-- Modelled from the spec: `skottie::ColorPropertyValue` is an `SkColor` (declared in
`SkottieProperty.h`); its default value is `0`. -/
abbrev ColorPropertyValue := Nat

/-- Modelled from the spec: `skottie::OpacityPropertyValue` is a `float`; default `0`. -/
abbrev OpacityPropertyValue := SkScalar

/-- Modelled from the spec: `skottie::TransformPropertyValue`, an aggregate of scalars
(declared in `SkottieProperty.h`); its value-initialised default is all zero. -/
structure TransformPropertyValue where
  fAnchorPoint : SkScalar × SkScalar
  fPosition : SkScalar × SkScalar
  fScale : SkScalar × SkScalar
  fRotation : SkScalar
  fSkew : SkScalar
  fSkewAxis : SkScalar
  deriving DecidableEq, Inhabited

/-- Modelled from the spec: `skottie::TextPropertyValue` (declared in `SkottieProperty.h`):
the string field `fText` and the remaining text-style fields (typeface, size, colours,
alignment, ...), which this file never reads or writes one by one and which are kept as a
single component. -/
structure TextPropertyValue where
  fText : Str
  fStyle : Nat
  deriving DecidableEq, Inhabited

/-- The identity of one property handle object (`std::unique_ptr<...PropertyHandle>`). -/
abbrev Handle := Nat

/-- Modelled from the spec: `LazyHandle<T>` (declared in `SkottieProperty.h`), "a
zero-argument factory"; `c ()` constructs the handle. -/
abbrev LazyHandle := Unit → Handle

/-- One call applied to a property handle. -/
inductive HandleCall (V : Type) where
  | get (h : Handle)
  | set (h : Handle) (v : V)
  deriving DecidableEq

/-- Modelled from the spec: the property handles of one kind ("each handle supporting
`get()` / `set(value)`", implemented outside this file).  `value h` is what `h->get()`
returns now; `calls` lists the calls applied so far, oldest first. -/
structure HandleStore (V : Type) where
  value : Handle → V
  calls : List (HandleCall V)

namespace HandleStore

variable {V : Type}

/-- Source: `handle->get()`. -/
def get (s : HandleStore V) (h : Handle) : V × HandleStore V :=
  (s.value h, { s with calls := s.calls ++ [HandleCall.get h] })

/-- Source: `handle->set(v)`. -/
def set (s : HandleStore V) (h : Handle) (v : V) : HandleStore V :=
  { value := fun h' => if h' = h then v else s.value h'
    calls := s.calls ++ [HandleCall.set h v] }

/-- The loop `for (auto& handle : group) handle->set(val)`. -/
def setAll (s : HandleStore V) (group : List Handle) (val : V) : HandleStore V :=
  group.foldl (fun acc handle => acc.set handle val) s

end HandleStore

/-- The property objects of the animation, by kind. -/
structure Scene where
  color : HandleStore ColorPropertyValue
  opacity : HandleStore OpacityPropertyValue
  transform : HandleStore TransformPropertyValue
  text : HandleStore TextPropertyValue

/-! ## Capture maps -/

/-- Modelled from the spec: `CustomPropertyManager::PropKey` (declared in the header), "a
string". -/
abbrev PropKey := Str

/-- The handles captured under one key, in capture order (`std::vector<std::unique_ptr<T>>`). -/
abbrev PropGroup := List Handle

/-- Modelled from the spec: `PropMap<T>` (declared in the header), a
`std::unordered_map<PropKey, std::vector<std::unique_ptr<T>>>`: "mapping from Property Key to
an ordered list of opaque property handles". -/
abbrev PropMap := List (PropKey × PropGroup)

namespace PropMap

/-- Source: `container.find(key)`: `none` is `container.end()`. -/
def find : PropMap → PropKey → Option PropGroup
  | [], _ => none
  | (k, g) :: rest, key => if k = key then some g else find rest key

/-- The effect of `f` on `container[key]`; `operator[]` first inserts an empty vector when
the key is absent. -/
def modify : PropMap → PropKey → (PropGroup → PropGroup) → PropMap
  | [], key, f => [(key, f [])]
  | (k, g) :: rest, key, f =>
    if k = key then (k, f g) :: rest else (k, g) :: modify rest key f

/-- Source: `container[key].push_back(h)`. -/
def pushBack (m : PropMap) (key : PropKey) (h : Handle) : PropMap :=
  m.modify key (fun g => g ++ [h])

/-- Source: `container[key] = group`. -/
def assign (m : PropMap) (key : PropKey) (group : PropGroup) : PropMap :=
  m.modify key (fun _ => group)

/-- The keys of the map, one per entry. -/
def keys (m : PropMap) : List PropKey :=
  m.map Prod.fst

end PropMap

/-! ## CustomPropertyManager -/

/-- Modelled from the spec: `CustomPropertyManager::Mode` (declared in the header), the
"collapse" mode and the "non-collapse" (path-based) mode. -/
inductive Mode where
  | kCollapseProperties
  | kNamespacedProperties
  deriving DecidableEq

/-- Modelled from the spec: `PropertyObserver::NodeType` (declared in the header), the
`nodeType` argument of node-enter and node-leaving; this file never inspects it. -/
inductive NodeType where
  | COMPOSITION
  | LAYER
  | EFFECT
  | OTHER
  deriving DecidableEq

/-- Modelled from the spec: `CustomPropertyManager::MarkerInfo` (declared in the header),
"`{name: string, startTime: float, endTime: float}`". -/
structure MarkerInfo where
  name : Str
  t0 : SkScalar
  t1 : SkScalar
  deriving DecidableEq

/-- The data members of `CustomPropertyManager` that this file reads and writes. -/
structure CustomPropertyManager where
  fMode : Mode
  fPrefix : Str
  fCurrentNode : Str
  fColorMap : PropMap
  fOpacityMap : PropMap
  fTransformMap : PropMap
  fTextMap : PropMap
  fMarkers : List MarkerInfo
  deriving DecidableEq

namespace CustomPropertyManager

/-- The constructor `CustomPropertyManager(Mode mode, const char* prefix)`. -/
def new (mode : Mode) (prefixp : Option Str) : CustomPropertyManager :=
  { fMode := mode
    fPrefix := match prefixp with
      | some p => p
      | none => "$".toList
    fCurrentNode := []
    fColorMap := []
    fOpacityMap := []
    fTransformMap := []
    fTextMap := []
    fMarkers := [] }

/-- Source: `CustomPropertyManager::acceptKey`.  A null `name` is read by `SkStrStartsWith`:
`none`. -/
def acceptKey (m : CustomPropertyManager) (name : Option Str) (suffix : Str) : Option Str :=
  match name with
  | none => none
  | some name =>
    if !SkStrStartsWith name m.fPrefix then
      some []
    else
      some (if m.fMode = Mode.kCollapseProperties then name else m.fCurrentNode ++ suffix)

namespace PropertyInterceptor

/-- Source: `PropertyInterceptor::onColorProperty`. -/
def onColorProperty (fMgr : CustomPropertyManager) (node_name : Option Str) (c : LazyHandle) :
    Option CustomPropertyManager :=
  (fMgr.acceptKey node_name ".Color".toList).map fun key =>
    if !key.isEmpty then { fMgr with fColorMap := fMgr.fColorMap.pushBack key (c ()) }
    else fMgr

/-- Source: `PropertyInterceptor::onOpacityProperty`. -/
def onOpacityProperty (fMgr : CustomPropertyManager) (node_name : Option Str) (o : LazyHandle) :
    Option CustomPropertyManager :=
  (fMgr.acceptKey node_name ".Opacity".toList).map fun key =>
    if !key.isEmpty then { fMgr with fOpacityMap := fMgr.fOpacityMap.pushBack key (o ()) }
    else fMgr

/-- Source: `PropertyInterceptor::onTransformProperty`. -/
def onTransformProperty (fMgr : CustomPropertyManager) (node_name : Option Str)
    (t : LazyHandle) : Option CustomPropertyManager :=
  (fMgr.acceptKey node_name ".Transform".toList).map fun key =>
    if !key.isEmpty then { fMgr with fTransformMap := fMgr.fTransformMap.pushBack key (t ()) }
    else fMgr

/-- Source: `PropertyInterceptor::onTextProperty`. -/
def onTextProperty (fMgr : CustomPropertyManager) (node_name : Option Str) (t : LazyHandle) :
    Option CustomPropertyManager :=
  (fMgr.acceptKey node_name ".Text".toList).map fun key =>
    if !key.isEmpty then { fMgr with fTextMap := fMgr.fTextMap.pushBack key (t ()) }
    else fMgr

/-- Source: `PropertyInterceptor::onEnterNode`. -/
def onEnterNode (fMgr : CustomPropertyManager) (node_name : Option Str)
    (_node_type : NodeType) : CustomPropertyManager :=
  match node_name with
  | none => fMgr
  | some node_name =>
    { fMgr with
      fCurrentNode :=
        if fMgr.fCurrentNode.isEmpty then node_name
        else fMgr.fCurrentNode ++ ".".toList ++ node_name }

/-- Source: `PropertyInterceptor::onLeavingNode`. -/
def onLeavingNode (fMgr : CustomPropertyManager) (node_name : Option Str)
    (_node_type : NodeType) : CustomPropertyManager :=
  match node_name with
  | none => fMgr
  | some node_name =>
    let length := strlen node_name
    { fMgr with
      fCurrentNode :=
        if fMgr.fCurrentNode.length > length then
          substr fMgr.fCurrentNode 0
            (sizeSub (sizeSub fMgr.fCurrentNode.length (strlen node_name)) 1)
        else [] }

end PropertyInterceptor

/-- Source: `MarkerInterceptor::onMarker`; `std::string(name)` reads through a null `name`. -/
def onMarker (fMgr : CustomPropertyManager) (name : Option Str) (t0 t1 : SkScalar) :
    Option CustomPropertyManager :=
  name.map fun name => { fMgr with fMarkers := fMgr.fMarkers ++ [⟨name, t0, t1⟩] }

/-- Source: `CustomPropertyManager::getProps`; `none` when the `SkASSERT` fails. -/
def getProps (container : PropMap) : Option (List PropKey) :=
  container.foldl
    (fun props prop_list =>
      props.bind fun props =>
        if prop_list.2.isEmpty then none else some (props ++ [prop_list.1]))
    (some [])

/-- Source: `CustomPropertyManager::get`; `front()` of an empty vector is `none`. -/
def get {V : Type} [Inhabited V] (key : PropKey) (container : PropMap) (s : HandleStore V) :
    Option (V × HandleStore V) :=
  match container.find key with
  | none => some (default, s)
  | some prop_group =>
    match prop_group.head? with
    | none => none
    | some front => some (s.get front)

/-- Source: `CustomPropertyManager::set`. -/
def set {V : Type} (key : PropKey) (val : V) (container : PropMap) (s : HandleStore V) :
    Bool × HandleStore V :=
  match container.find key with
  | none => (false, s)
  | some prop_group => (true, s.setAll prop_group val)

/-- Source: `CustomPropertyManager::getColorProps`. -/
def getColorProps (m : CustomPropertyManager) : Option (List PropKey) :=
  getProps m.fColorMap

/-- Source: `CustomPropertyManager::getColor`. -/
def getColor (m : CustomPropertyManager) (key : PropKey) (sc : Scene) :
    Option (ColorPropertyValue × Scene) :=
  (get key m.fColorMap sc.color).map fun r => (r.1, { sc with color := r.2 })

/-- Source: `CustomPropertyManager::setColor`. -/
def setColor (m : CustomPropertyManager) (key : PropKey) (c : ColorPropertyValue) (sc : Scene) :
    Bool × CustomPropertyManager × Scene :=
  let r := set key c m.fColorMap sc.color
  (r.1, m, { sc with color := r.2 })

/-- Source: `CustomPropertyManager::getOpacityProps`. -/
def getOpacityProps (m : CustomPropertyManager) : Option (List PropKey) :=
  getProps m.fOpacityMap

/-- Source: `CustomPropertyManager::getOpacity`. -/
def getOpacity (m : CustomPropertyManager) (key : PropKey) (sc : Scene) :
    Option (OpacityPropertyValue × Scene) :=
  (get key m.fOpacityMap sc.opacity).map fun r => (r.1, { sc with opacity := r.2 })

/-- Source: `CustomPropertyManager::setOpacity`. -/
def setOpacity (m : CustomPropertyManager) (key : PropKey) (o : OpacityPropertyValue)
    (sc : Scene) : Bool × CustomPropertyManager × Scene :=
  let r := set key o m.fOpacityMap sc.opacity
  (r.1, m, { sc with opacity := r.2 })

/-- Source: `CustomPropertyManager::getTransformProps`. -/
def getTransformProps (m : CustomPropertyManager) : Option (List PropKey) :=
  getProps m.fTransformMap

/-- Source: `CustomPropertyManager::getTransform`. -/
def getTransform (m : CustomPropertyManager) (key : PropKey) (sc : Scene) :
    Option (TransformPropertyValue × Scene) :=
  (get key m.fTransformMap sc.transform).map fun r => (r.1, { sc with transform := r.2 })

/-- Source: `CustomPropertyManager::setTransform`. -/
def setTransform (m : CustomPropertyManager) (key : PropKey) (t : TransformPropertyValue)
    (sc : Scene) : Bool × CustomPropertyManager × Scene :=
  let r := set key t m.fTransformMap sc.transform
  (r.1, m, { sc with transform := r.2 })

/-- Source: `CustomPropertyManager::getTextProps`. -/
def getTextProps (m : CustomPropertyManager) : Option (List PropKey) :=
  getProps m.fTextMap

/-- Source: `CustomPropertyManager::getText`. -/
def getText (m : CustomPropertyManager) (key : PropKey) (sc : Scene) :
    Option (TextPropertyValue × Scene) :=
  (get key m.fTextMap sc.text).map fun r => (r.1, { sc with text := r.2 })

/-- Source: `CustomPropertyManager::setText`. -/
def setText (m : CustomPropertyManager) (key : PropKey) (o : TextPropertyValue) (sc : Scene) :
    Bool × CustomPropertyManager × Scene :=
  let r := set key o m.fTextMap sc.text
  (r.1, m, { sc with text := r.2 })

end CustomPropertyManager

/-! ## The build pass as a sequence of observer calls -/

/-- One call of the build pass on a `skottie::PropertyObserver`. -/
inductive Event where
  | onColorProperty (node_name : Option Str) (c : LazyHandle)
  | onOpacityProperty (node_name : Option Str) (o : LazyHandle)
  | onTransformProperty (node_name : Option Str) (t : LazyHandle)
  | onTextProperty (node_name : Option Str) (t : LazyHandle)
  | onEnterNode (node_name : Option Str) (node_type : NodeType)
  | onLeavingNode (node_name : Option Str) (node_type : NodeType)

/-- The four property kinds of the observer interface. -/
inductive PropKind where
  | color
  | opacity
  | transform
  | text
  deriving DecidableEq

namespace PropKind

/-- The suffix each property callback passes to `acceptKey`. -/
def suffix : PropKind → Str
  | color => ".Color".toList
  | opacity => ".Opacity".toList
  | transform => ".Transform".toList
  | text => ".Text".toList

/-- The capture map of a kind. -/
def propMap : PropKind → CustomPropertyManager → PropMap
  | color, m => m.fColorMap
  | opacity, m => m.fOpacityMap
  | transform, m => m.fTransformMap
  | text, m => m.fTextMap

/-- The property callback of a kind. -/
def deliver : PropKind → CustomPropertyManager → Option Str → LazyHandle →
    Option CustomPropertyManager
  | color => CustomPropertyManager.PropertyInterceptor.onColorProperty
  | opacity => CustomPropertyManager.PropertyInterceptor.onOpacityProperty
  | transform => CustomPropertyManager.PropertyInterceptor.onTransformProperty
  | text => CustomPropertyManager.PropertyInterceptor.onTextProperty

end PropKind

namespace Event

/-- The kind, name and handle factory of a property callback. -/
def property? : Event → Option (PropKind × Option Str × LazyHandle)
  | onColorProperty n c => some (PropKind.color, n, c)
  | onOpacityProperty n o => some (PropKind.opacity, n, o)
  | onTransformProperty n t => some (PropKind.transform, n, t)
  | onTextProperty n t => some (PropKind.text, n, t)
  | onEnterNode _ _ => none
  | onLeavingNode _ _ => none

/-- Whether the event is `onEnterNode` or `onLeavingNode`. -/
def isNodeEvent (e : Event) : Bool :=
  e.property?.isNone

/-- Whether a property callback carries a name (a non-null `node_name`); node events pass. -/
def named (e : Event) : Bool :=
  match e.property? with
  | some (_, none, _) => false
  | _ => true

end Event

namespace CustomPropertyManager.PropertyInterceptor

/-- The virtual call the build pass makes for one event. -/
def dispatch (fMgr : CustomPropertyManager) : Event → Option CustomPropertyManager
  | Event.onColorProperty n c => onColorProperty fMgr n c
  | Event.onOpacityProperty n o => onOpacityProperty fMgr n o
  | Event.onTransformProperty n t => onTransformProperty fMgr n t
  | Event.onTextProperty n t => onTextProperty fMgr n t
  | Event.onEnterNode n ty => some (onEnterNode fMgr n ty)
  | Event.onLeavingNode n ty => some (onLeavingNode fMgr n ty)

/-- A whole build pass: the events in order, stopping at the first fault. -/
def traverse (fMgr : CustomPropertyManager) : List Event → Option CustomPropertyManager
  | [] => some fMgr
  | e :: es => (dispatch fMgr e).bind fun fMgr' => traverse fMgr' es

end CustomPropertyManager.PropertyInterceptor

/-- The nodes entered and not yet left after `evs`, innermost first, starting from the open
nodes `open_`; `none` when a leave does not match the innermost open node. -/
def openNodes : List (Option Str) → List Event → Option (List (Option Str))
  | open_, [] => some open_
  | open_, Event.onEnterNode n _ :: es => openNodes (n :: open_) es
  | open_, Event.onLeavingNode n _ :: es =>
    match open_ with
    | top :: below => if top = n then openNodes below es else none
    | [] => none
  | open_, _ :: es => openNodes open_ es

/-- A well-nested event sequence: every leave matches the innermost open enter, and no node
is left open. -/
def wellNested (evs : List Event) : Bool :=
  openNodes [] evs = some []

/-- The names of the open nodes, outermost first; a node entered with a null name has none. -/
def ancestorNames (open_ : List (Option Str)) : List Str :=
  open_.reverse.filterMap id

/-- The handles built by the callbacks of kind `k` named `n`, in visitation order. -/
def handlesOf (k : PropKind) (n : Str) (evs : List Event) : List Handle :=
  evs.filterMap fun e =>
    match e.property? with
    | some (k', some n', c) => if k' = k ∧ n' = n then some (c ()) else none
    | _ => none

/-- The handles a manager holds under `key` in the capture map of kind `k` (none when the key
is absent). -/
def groupOf (k : PropKind) (m : CustomPropertyManager) (key : PropKey) : PropGroup :=
  ((k.propMap m).find key).getD []

/-- The node path after a node named `n` is entered at the path `p`; a null name adds
nothing. -/
def pushName (p : Str) : Option Str → Str
  | none => p
  | some n => if p.isEmpty then n else p ++ ".".toList ++ n

/-- The node path that entering the open nodes `open_` (innermost first) one after the other,
outermost first, builds on the path `base`. -/
def pathOfOpen (base : Str) : List (Option Str) → Str
  | [] => base
  | n :: below => pushName (pathOfOpen base below) n

/-- Whether the outermost of the names `names` (outermost first), when there is one, is not
the empty string. -/
def rootNamed (names : List Str) : Bool :=
  decide (names.head? ≠ some [])

/-- The names of the nodes that are open once the events `pre` of a pass have been delivered,
outermost first: the ancestor path at that moment (`none` when `pre` is not well nested). -/
def ancestorsAfter (pre : List Event) : Option (List Str) :=
  (openNodes [] pre).map ancestorNames

/-! ## SlotManager -/

/-- Modelled from the spec: the JSON document model (`skjson::Value`, implemented outside
this file).  A number is given by its integer value, `real` is a number that is not an
integer. -/
inductive Json where
  | null
  | bool (b : Bool)
  | number (n : Int)
  | real
  | string (s : Str)
  | array (items : List Json)
  | object (members : List (Str × Json))

namespace Json

/-- Modelled from the spec: `skjson::ObjectValue::operator[]`, the value of the member named
`key` (the last one when a name is repeated), the null value when there is none. -/
def member (members : List (Str × Json)) (key : Str) : Json :=
  match members.reverse.find? (fun kv => kv.1 = key) with
  | some kv => kv.2
  | none => Json.null

end Json

/-- Modelled from the spec: `skottie::ParseDefault<int>` (defined in `SkottieJson.cpp`): the
value of an integer that fits an `int`, otherwise the default. -/
def ParseDefault (v : Json) (defaultValue : Int) : Int :=
  match v with
  | Json.number n => if -2 ^ 31 ≤ n ∧ n < 2 ^ 31 then n else defaultValue
  | _ => defaultValue

/-- Modelled from the spec: `SlotManager::SlotInfo` (declared in the header), the record
`{slotID, type}`; the file stores the parsed `int` tag in `type`. -/
structure SlotInfo where
  slotID : Str
  type : Int
  deriving DecidableEq

namespace SlotType

/-- Modelled from the spec: the `SlotManager::SlotType` tags (declared in the header),
"0=Color, 1=Opacity, 2=Text, 3=...". -/
def kColor : Int := 0

/-- Modelled from the spec: see `kColor`. -/
def kOpacity : Int := 1

/-- Modelled from the spec: see `kColor`. -/
def kText : Int := 2

/-- Modelled from the spec: see `kColor`; the tag after the three property kinds. -/
def kImage : Int := 3

end SlotType

/-- An image asset object (`sk_sp<skresources::ImageAsset>`, non-null), by identity. -/
abbrev ImageAsset := Nat

/-- The data member of `ImageAssetProxy`: the delegate, `none` when null. -/
structure ImageAssetProxy where
  fImageAsset : Option ImageAsset
  deriving DecidableEq

/-- Source: `ImageAssetProxy::setImageAsset`. -/
def ImageAssetProxy.setImageAsset (_p : ImageAssetProxy) (asset : Option ImageAsset) :
    ImageAssetProxy :=
  { fImageAsset := asset }

/-- Modelled from the spec: the resource provider interface (`skresources::ResourceProvider`),
"`load(path, name) -> bytes|null`, `loadImageAsset(path, name, slotID) -> ImageAsset|null`". -/
structure ResourceProvider where
  load : Str → Str → Option (List Nat)
  loadImageAsset : Option Str → Option Str → Option Str → Option ImageAsset

/-- The data members of `SlotManager::SlottableResourceProvider`: the wrapped provider
(`fProxy` of `ResourceProviderProxyBase`, `none` when null) and one proxy per image slot. -/
structure SlottableResourceProvider where
  fProxy : Option ResourceProvider
  fImageAssetMap : List (Str × ImageAssetProxy)

namespace SlottableResourceProvider

/-- Source: `fImageAssetMap.find(key)`. -/
def findProxy : List (Str × ImageAssetProxy) → Str → Option ImageAssetProxy
  | [], _ => none
  | (k, p) :: rest, key => if k = key then some p else findProxy rest key

/-- Source: `fImageAssetMap[key] = p`. -/
def assignProxy : List (Str × ImageAssetProxy) → Str → ImageAssetProxy →
    List (Str × ImageAssetProxy)
  | [], key, p => [(key, p)]
  | (k, q) :: rest, key, p =>
    if k = key then (k, p) :: rest else (k, q) :: assignProxy rest key p

/-- The body of the loop in the constructor of `SlottableResourceProvider`, for one slot. -/
def addSlot (rp : SlottableResourceProvider) (s : SlotInfo) : SlottableResourceProvider :=
  if s.type = SlotType.kImage then
    { rp with fImageAssetMap := assignProxy rp.fImageAssetMap s.slotID ⟨none⟩ }
  else rp

/-- The constructor of `SlottableResourceProvider`: the loop over `slotInfos`. -/
def new (slotInfos : List SlotInfo) (proxy : Option ResourceProvider) :
    SlottableResourceProvider :=
  slotInfos.foldl addSlot { fProxy := proxy, fImageAssetMap := [] }

/-- Source: `SlottableResourceProvider::loadImageAsset`.  The result names the returned proxy
by its slot (`none` is a null result).  Reading through a null `slot_name`, or calling
`setImageAsset` on a null proxy, is a fault: outer `none`. -/
def loadImageAsset (rp : SlottableResourceProvider) (resource_path name slot_name : Option Str) :
    Option (Option Str × SlottableResourceProvider) :=
  match slot_name with
  | none => none
  | some slot =>
    let imageAssetProxy := findProxy rp.fImageAssetMap slot
    match rp.fProxy with
    | some fProxy =>
      match imageAssetProxy with
      | none => none
      | some p =>
        some (some slot,
          { rp with
            fImageAssetMap :=
              assignProxy rp.fImageAssetMap slot
                (p.setImageAsset (fProxy.loadImageAsset resource_path name slot_name)) })
    | none => some (imageAssetProxy.map fun _ => slot, rp)

end SlottableResourceProvider

/-- The wrapped `skottie::PropertyObserver`, an object implemented elsewhere: the calls it
has received, oldest first. -/
abbrev ProxyObserver := List Event

/-- The data members of `SlotManager::SlottablePropertyObserver`; `fProxy = none` is a null
`fProxy`. -/
structure SlottablePropertyObserver where
  fColorMap : PropMap
  fOpacityMap : PropMap
  fTextMap : PropMap
  fProxy : Option ProxyObserver

namespace SlottablePropertyObserver

/-- Source: `if (fProxy) fProxy->on...(...)`. -/
def forward (o : SlottablePropertyObserver) (e : Event) : SlottablePropertyObserver :=
  match o.fProxy with
  | some received => { o with fProxy := some (received ++ [e]) }
  | none => o

/-- The `switch (s.type)` in the constructor of `SlottablePropertyObserver`, for one slot;
the default case only logs. -/
def addSlot (o : SlottablePropertyObserver) (s : SlotInfo) : SlottablePropertyObserver :=
  if s.type = SlotType.kColor then { o with fColorMap := o.fColorMap.assign s.slotID [] }
  else if s.type = SlotType.kOpacity then
    { o with fOpacityMap := o.fOpacityMap.assign s.slotID [] }
  else if s.type = SlotType.kText then { o with fTextMap := o.fTextMap.assign s.slotID [] }
  else o

/-- The constructor of `SlottablePropertyObserver`: the loop over `slotInfos`. -/
def new (slotInfos : List SlotInfo) (proxy : Option ProxyObserver) :
    SlottablePropertyObserver :=
  slotInfos.foldl addSlot
    { fColorMap := [], fOpacityMap := [], fTextMap := [], fProxy := proxy }

/-- Source: `SlottablePropertyObserver::onColorProperty`. -/
def onColorProperty (o : SlottablePropertyObserver) (node_name : Option Str) (c : LazyHandle) :
    SlottablePropertyObserver :=
  let o1 :=
    match node_name with
    | some name =>
      match o.fColorMap.find name with
      | some _ => { o with fColorMap := o.fColorMap.pushBack name (c ()) }
      | none => o
    | none => o
  o1.forward (Event.onColorProperty node_name c)

/-- Source: `SlottablePropertyObserver::onOpacityProperty`. -/
def onOpacityProperty (o : SlottablePropertyObserver) (node_name : Option Str)
    (op : LazyHandle) : SlottablePropertyObserver :=
  let o1 :=
    match node_name with
    | some name =>
      match o.fOpacityMap.find name with
      | some _ => { o with fOpacityMap := o.fOpacityMap.pushBack name (op ()) }
      | none => o
    | none => o
  o1.forward (Event.onOpacityProperty node_name op)

/-- Source: `SlottablePropertyObserver::onTextProperty`.  A null `node_name` is converted to
a `std::string` by `find`: `none`. -/
def onTextProperty (o : SlottablePropertyObserver) (node_name : Option Str) (t : LazyHandle) :
    Option SlottablePropertyObserver :=
  match node_name with
  | none => none
  | some name =>
    let o1 :=
      match o.fTextMap.find name with
      | some _ => { o with fTextMap := o.fTextMap.pushBack name (t ()) }
      | none => o
    some (o1.forward (Event.onTextProperty node_name t))

/-- Source: `SlottablePropertyObserver::onTransformProperty`. -/
def onTransformProperty (o : SlottablePropertyObserver) (node_name : Option Str)
    (t : LazyHandle) : SlottablePropertyObserver :=
  o.forward (Event.onTransformProperty node_name t)

/-- Source: `SlottablePropertyObserver::onEnterNode`. -/
def onEnterNode (o : SlottablePropertyObserver) (node_name : Option Str)
    (node_type : NodeType) : SlottablePropertyObserver :=
  o.forward (Event.onEnterNode node_name node_type)

/-- Source: `SlottablePropertyObserver::onLeavingNode`. -/
def onLeavingNode (o : SlottablePropertyObserver) (node_name : Option Str)
    (node_type : NodeType) : SlottablePropertyObserver :=
  o.forward (Event.onLeavingNode node_name node_type)

/-- The virtual call the build pass makes for one event. -/
def dispatch (o : SlottablePropertyObserver) : Event → Option SlottablePropertyObserver
  | Event.onColorProperty n c => some (o.onColorProperty n c)
  | Event.onOpacityProperty n op => some (o.onOpacityProperty n op)
  | Event.onTransformProperty n t => some (o.onTransformProperty n t)
  | Event.onTextProperty n t => o.onTextProperty n t
  | Event.onEnterNode n ty => some (o.onEnterNode n ty)
  | Event.onLeavingNode n ty => some (o.onLeavingNode n ty)

/-- A whole build pass: the events in order, stopping at the first fault. -/
def traverse (o : SlottablePropertyObserver) : List Event → Option SlottablePropertyObserver
  | [] => some o
  | e :: es => (o.dispatch e).bind fun o' => traverse o' es

end SlottablePropertyObserver

/-- What the manifest reader sees of the outside: the bytes `SkData::MakeFromFileName` returns
for a path (`none` when the file cannot be read) and the root value `skjson::DOM` builds from
bytes. -/
structure ManifestSource where
  MakeFromFileName : Str → Option (List Nat)
  DOM : List Nat → Json

/-- The data members of `SlotManager`. -/
structure SlotManager where
  fSlotInfos : List SlotInfo
  fResourceProvider : SlottableResourceProvider
  fPropertyObserver : SlottablePropertyObserver

namespace SlotManager

/-- The loop body of `parseSlotIDsFromFileName` over the members of `slots`; a member whose
value is not an object gives a null `jslot`, which `(*jslot)["t"]` reads: `none`. -/
def parseMembers (fSlotInfos : List SlotInfo) : List (Str × Json) → Option (List SlotInfo)
  | [] => some fSlotInfos
  | (slotID, fValue) :: rest =>
    match fValue with
    | Json.object jslot =>
      let type := ParseDefault (Json.member jslot "t".toList) (-1)
      parseMembers (fSlotInfos ++ [⟨slotID, type⟩]) rest
    | _ => none

/-- Source: `SlotManager::parseSlotIDsFromFileName`, as the new value of `fSlotInfos`. -/
def parseSlotIDsFromFileName (src : ManifestSource) (fSlotInfos : List SlotInfo) (path : Str) :
    Option (List SlotInfo) :=
  match src.MakeFromFileName path with
  | some data =>
    match src.DOM data with
    | Json.object json =>
      match Json.member json "slots".toList with
      | Json.object jslots => parseMembers fSlotInfos jslots
      | _ => some fSlotInfos
    | _ => some fSlotInfos
  | none => some fSlotInfos

/-- The constructor of `SlotManager`. -/
def new (src : ManifestSource) (path : Str) (rpProxy : Option ResourceProvider)
    (poProxy : Option ProxyObserver) : Option SlotManager :=
  (parseSlotIDsFromFileName src [] path).map fun fSlotInfos =>
    { fSlotInfos := fSlotInfos
      fResourceProvider := SlottableResourceProvider.new fSlotInfos rpProxy
      fPropertyObserver := SlottablePropertyObserver.new fSlotInfos poProxy }

/-- Source: `SlotManager::setColorSlot`. -/
def setColorSlot (sm : SlotManager) (slotID : Str) (color : ColorPropertyValue) (sc : Scene) :
    SlotManager × Scene :=
  match sm.fPropertyObserver.fColorMap.find slotID with
  | some group => (sm, { sc with color := sc.color.setAll group color })
  | none => (sm, sc)

/-- Source: `SlotManager::setOpacitySlot`. -/
def setOpacitySlot (sm : SlotManager) (slotID : Str) (opacity : OpacityPropertyValue)
    (sc : Scene) : SlotManager × Scene :=
  match sm.fPropertyObserver.fOpacityMap.find slotID with
  | some group => (sm, { sc with opacity := sc.opacity.setAll group opacity })
  | none => (sm, sc)

/-- Source: `SlotManager::setTextStringSlot`. -/
def setTextStringSlot (sm : SlotManager) (slotID : Str) (text : Str) (sc : Scene) :
    SlotManager × Scene :=
  match sm.fPropertyObserver.fTextMap.find slotID with
  | some group =>
    (sm,
      { sc with
        text :=
          group.foldl
            (fun store handle =>
              let (tVal, store1) := store.get handle
              store1.set handle { tVal with fText := text })
            sc.text })
  | none => (sm, sc)

/-- Source: `SlotManager::setImageSlot(slotID, img)`. -/
def setImageSlot (sm : SlotManager) (slotID : Str) (img : Option ImageAsset) : SlotManager :=
  match SlottableResourceProvider.findProxy sm.fResourceProvider.fImageAssetMap slotID with
  | some p =>
    { sm with
      fResourceProvider :=
        { sm.fResourceProvider with
          fImageAssetMap :=
            SlottableResourceProvider.assignProxy sm.fResourceProvider.fImageAssetMap slotID
              (p.setImageAsset img) } }
  | none => sm

/-- Source: `SlotManager::setImageSlot(slotID, path, name, id)`. -/
def setImageSlotFrom (sm : SlotManager) (slotID : Str) (path name id : Option Str) :
    SlotManager :=
  match SlottableResourceProvider.findProxy sm.fResourceProvider.fImageAssetMap slotID with
  | some p =>
    { sm with
      fResourceProvider :=
        { sm.fResourceProvider with
          fImageAssetMap :=
            SlottableResourceProvider.assignProxy sm.fResourceProvider.fImageAssetMap slotID
              (p.setImageAsset
                (match sm.fResourceProvider.fProxy with
                  | some fProxy => fProxy.loadImageAsset path name id
                  | none => none)) } }
  | none => sm

end SlotManager

/-- Whether the manifest entries `slotInfos` declare the slot `slotID` with the type tag
`type`. -/
def declared (slotInfos : List SlotInfo) (type : Int) (slotID : Str) : Bool :=
  slotInfos.any fun s => decide (s.slotID = slotID ∧ s.type = type)

/-! ## Nested-animation loader -/

/-- The C library `strncmp` on two non-null strings, as the sign of its result: at most `n`
characters are compared, and a string that ends is smaller than one that goes on. -/
def strncmp : Str → Str → Nat → Int
  | _, _, 0 => 0
  | [], [], _ + 1 => 0
  | [], _ :: _, _ + 1 => -1
  | _ :: _, [], _ + 1 => 1
  | a :: s, b :: t, n + 1 => if a = b then strncmp s t n else if a < b then -1 else 1

/-- A built animation (`sk_sp<skottie::Animation>`, non-null), by identity. -/
abbrev Animation := Nat

/-- Source: `SkSize`, a width and a height. -/
abbrev SkSize := SkScalar × SkScalar

/-- The data members of `ExternalAnimationLayer`. -/
structure ExternalAnimationLayer where
  fAnimation : Animation
  fSize : SkSize
  deriving DecidableEq

/-- The data members of `ExternalAnimationPrecompInterceptor`; `fResourceProvider = none` is a
null provider. -/
structure ExternalAnimationPrecompInterceptor where
  fResourceProvider : Option ResourceProvider
  fPrefix : Str

namespace ExternalAnimationPrecompInterceptor

/-- The constructor of `ExternalAnimationPrecompInterceptor`, for a non-null `prefixp`. -/
def new (rprovider : Option ResourceProvider) (prefixp : Str) :
    ExternalAnimationPrecompInterceptor :=
  { fResourceProvider := rprovider, fPrefix := prefixp }

/-- Source: `ExternalAnimationPrecompInterceptor::onLoadPrecomp`.  `make` stands for
`skottie::Animation::Builder()...make(data)`, built outside this file (`none` when it fails).
The result is the layer returned (`none` is `nullptr`) and the `(path, name)` requests this
call made to `fResourceProvider->load`, in order.  A null `name` is read by `strncmp`, and a
null provider is called through: outer `none`. -/
def onLoadPrecomp (self : ExternalAnimationPrecompInterceptor)
    (make : List Nat → Option Animation) (_id name : Option Str) (size : SkSize) :
    Option (Option ExternalAnimationLayer × List (Str × Str)) :=
  match name with
  | none => none
  | some name =>
    if 0 ≠ strncmp name self.fPrefix self.fPrefix.length then some (none, [])
    else
      match self.fResourceProvider with
      | none => none
      | some fResourceProvider =>
        let request : Str × Str := ([], name.drop self.fPrefix.length)
        match fResourceProvider.load request.1 request.2 with
        | none => some (none, [request])
        | some data =>
          match make data with
          | some anim => some (some { fAnimation := anim, fSize := size }, [request])
          | none => some (none, [request])

end ExternalAnimationPrecompInterceptor

/-- Whether the event is anything but a text callback with a null node name. -/
def Event.textNamed : Event → Bool
  | Event.onTextProperty none _ => false
  | _ => true

/-- One use of a `CustomPropertyManager`: an observer callback of the build pass, or a call
of its query and mutate interface. -/
inductive ManagerCall where
  | observe (e : Event)
  | getColorProps
  | getColor (key : PropKey)
  | setColor (key : PropKey) (c : ColorPropertyValue)
  | getOpacityProps
  | getOpacity (key : PropKey)
  | setOpacity (key : PropKey) (o : OpacityPropertyValue)
  | getTransformProps
  | getTransform (key : PropKey)
  | setTransform (key : PropKey) (t : TransformPropertyValue)
  | getTextProps
  | getText (key : PropKey)
  | setText (key : PropKey) (o : TextPropertyValue)

/-- Whether the call is anything but a property callback with a null node name. -/
def ManagerCall.named : ManagerCall → Bool
  | ManagerCall.observe e => e.named
  | _ => true

namespace CustomPropertyManager

/-- The manager and the scene after one call; the value a getter returns is dropped.  `none`
when the call faults. -/
def perform (m : CustomPropertyManager) (sc : Scene) :
    ManagerCall → Option (CustomPropertyManager × Scene)
  | ManagerCall.observe e => (PropertyInterceptor.dispatch m e).map fun m' => (m', sc)
  | ManagerCall.getColorProps => m.getColorProps.map fun _ => (m, sc)
  | ManagerCall.getColor key => (m.getColor key sc).map fun r => (m, r.2)
  | ManagerCall.setColor key c => some (m.setColor key c sc).2
  | ManagerCall.getOpacityProps => m.getOpacityProps.map fun _ => (m, sc)
  | ManagerCall.getOpacity key => (m.getOpacity key sc).map fun r => (m, r.2)
  | ManagerCall.setOpacity key o => some (m.setOpacity key o sc).2
  | ManagerCall.getTransformProps => m.getTransformProps.map fun _ => (m, sc)
  | ManagerCall.getTransform key => (m.getTransform key sc).map fun r => (m, r.2)
  | ManagerCall.setTransform key t => some (m.setTransform key t sc).2
  | ManagerCall.getTextProps => m.getTextProps.map fun _ => (m, sc)
  | ManagerCall.getText key => (m.getText key sc).map fun r => (m, r.2)
  | ManagerCall.setText key o => some (m.setText key o sc).2

/-- The manager and the scene after a sequence of calls, stopping at the first fault. -/
def performAll (m : CustomPropertyManager) (sc : Scene) :
    List ManagerCall → Option (CustomPropertyManager × Scene)
  | [] => some (m, sc)
  | c :: cs => (m.perform sc c).bind fun r => performAll r.1 r.2 cs

/-- The capture-map invariant: no entry of any of the four maps has an empty handle list,
and no map holds a key twice. -/
def Populated (m : CustomPropertyManager) : Prop :=
  ∀ k : PropKind, (∀ entry ∈ k.propMap m, entry.2 ≠ []) ∧ (k.propMap m).keys.Nodup

end CustomPropertyManager

/-! ## Sample inputs -/

/-- Two colour callbacks whose node name is the empty string. -/
def twoUnnamed : List Event :=
  [Event.onColorProperty (some []) (fun _ => 1), Event.onColorProperty (some []) (fun _ => 2)]

/-- A pass over node events only: a layer `A` holding a node without a name and a node
named `B.c`. -/
def nestedNodes : List Event :=
  [Event.onEnterNode (some "A".toList) NodeType.LAYER,
    Event.onEnterNode none NodeType.OTHER,
    Event.onLeavingNode none NodeType.OTHER,
    Event.onEnterNode (some "B.c".toList) NodeType.EFFECT,
    Event.onLeavingNode (some "B.c".toList) NodeType.EFFECT,
    Event.onLeavingNode (some "A".toList) NodeType.LAYER]

/-- A pass that meets a colour named `$fill1` in two different layers. -/
def fillPass : List Event :=
  [Event.onEnterNode (some "shape".toList) NodeType.LAYER,
    Event.onColorProperty (some "$fill1".toList) (fun _ => 1),
    Event.onLeavingNode (some "shape".toList) NodeType.LAYER,
    Event.onEnterNode (some "other".toList) NodeType.LAYER,
    Event.onColorProperty (some "$fill1".toList) (fun _ => 2),
    Event.onLeavingNode (some "other".toList) NodeType.LAYER]

/-- The collapse-mode manager after `fillPass`. -/
def fillManager : CustomPropertyManager :=
  { CustomPropertyManager.new Mode.kCollapseProperties none with
    fColorMap := [("$fill1".toList, [1, 2])] }

/-- Source: `SK_ColorRED`. -/
def SK_ColorRED : ColorPropertyValue := 0xFFFF0000

/-- A store in which every handle reads `v` and no call has been made. -/
def HandleStore.fresh {V : Type} (v : V) : HandleStore V :=
  { value := fun _ => v, calls := [] }

/-- A scene in which handle `h` of every kind holds a value of its own, and no call has been
made. -/
def sampleScene : Scene :=
  { color := { value := fun h => h + 7, calls := [] }
    opacity := { value := fun h => 10 * (h : Int), calls := [] }
    transform := HandleStore.fresh default
    text := { value := fun h => ⟨"t".toList, h⟩, calls := [] } }

/-- Manifest entries: `s1` a colour, `s2` a text, `s3` an image, `s4` with an unknown tag. -/
def sampleSlots : List SlotInfo :=
  [⟨"s1".toList, SlotType.kColor⟩, ⟨"s2".toList, SlotType.kText⟩,
    ⟨"s3".toList, SlotType.kImage⟩, ⟨"s4".toList, 9⟩]

/-- A pass that meets a colour and a text named after the slots `s1` and `s2`, and a colour
named `s2`. -/
def slotPass : List Event :=
  [Event.onEnterNode (some "layer".toList) NodeType.LAYER,
    Event.onColorProperty (some "s1".toList) (fun _ => 1),
    Event.onTextProperty (some "s2".toList) (fun _ => 2),
    Event.onColorProperty (some "s2".toList) (fun _ => 3),
    Event.onLeavingNode (some "layer".toList) NodeType.LAYER]

/-- The slot observer built from `sampleSlots`, without a wrapped observer, after
`slotPass`. -/
def slotObserver : SlottablePropertyObserver :=
  { fColorMap := [("s1".toList, [1])]
    fOpacityMap := []
    fTextMap := [("s2".toList, [2])]
    fProxy := none }

/-- A slot manager over `sampleSlots`, without wrapped collaborators, after `slotPass`. -/
def sampleSlotManager : SlotManager :=
  { fSlotInfos := sampleSlots
    fResourceProvider := SlottableResourceProvider.new sampleSlots none
    fPropertyObserver := slotObserver }

/-- A slot manager whose text slot `s2` has captured the two handles 2 and 5. -/
def twoTextManager : SlotManager :=
  { fSlotInfos := sampleSlots
    fResourceProvider := SlottableResourceProvider.new sampleSlots none
    fPropertyObserver :=
      { fColorMap := [("s1".toList, [])]
        fOpacityMap := []
        fTextMap := [("s2".toList, [2, 5])]
        fProxy := none } }

/-- A resource provider that holds one document, named `child.json`, and no image. -/
def oneFileProvider : ResourceProvider :=
  { load := fun _ name => if name = "child.json".toList then some [123, 125] else none
    loadImageAsset := fun _ _ _ => none }

/-- A builder that turns every document into the animation 4. -/
def anyAnimation : List Nat → Option Animation :=
  fun _ => some 4

/-- The manifest document `{"slots": {"s1": 5}}`: the value of the member `s1` is a number,
not an object. -/
def numberMemberManifest : Json :=
  Json.object [("slots".toList, Json.object [("s1".toList, Json.number 5)])]

/-- A manifest source in which every path holds a file whose document is
`numberMemberManifest`. -/
def numberMemberSource : ManifestSource :=
  { MakeFromFileName := fun _ => some []
    DOM := fun _ => numberMemberManifest }

/-- A resource provider that answers every image request with the asset 9 and holds no
document. -/
def imageProvider : ResourceProvider :=
  { load := fun _ _ => none
    loadImageAsset := fun _ _ _ => some 9 }

/-- A pass that delivers one text property of a node without a name. -/
def unnamedText : List Event :=
  [Event.onTextProperty none (fun _ => 1)]

/-- A session with a manager: the pass `fillPass`, then queries and writes on known and
unknown keys. -/
def fillSession : List ManagerCall :=
  fillPass.map ManagerCall.observe ++
    [ManagerCall.getColorProps, ManagerCall.setColor "$fill1".toList SK_ColorRED,
      ManagerCall.getColor "$fill1".toList, ManagerCall.setText "$fill1".toList default,
      ManagerCall.getText "nothing".toList, ManagerCall.getTransformProps]

/-- A pass over a node whose name is the empty string, holding a node named `B`. -/
def emptyNamedNode : List Event :=
  [Event.onEnterNode (some []) NodeType.LAYER,
    Event.onEnterNode (some "B".toList) NodeType.LAYER,
    Event.onLeavingNode (some "B".toList) NodeType.LAYER,
    Event.onLeavingNode (some []) NodeType.LAYER]

/-- A pass over a layer `A`, a node named with the empty string in it and a node `B.c` in
that, which has a colour. -/
def deepNodes : List Event :=
  [Event.onEnterNode (some "A".toList) NodeType.LAYER,
    Event.onEnterNode (some []) NodeType.OTHER,
    Event.onEnterNode (some "B.c".toList) NodeType.EFFECT,
    Event.onColorProperty (some "$x".toList) (fun _ => 1),
    Event.onLeavingNode (some "B.c".toList) NodeType.EFFECT,
    Event.onLeavingNode (some []) NodeType.OTHER,
    Event.onLeavingNode (some "A".toList) NodeType.LAYER]

/-- The namespaced manager after the three enters of `deepNodes`. -/
def deepInner : CustomPropertyManager :=
  { CustomPropertyManager.new Mode.kNamespacedProperties none with
    fCurrentNode := "A..B.c".toList }

/-- A pass over two layers: `A` holds colours named `$x` and `$z` and an opacity named `$y`,
`B` holds a colour named `$x` and a colour named `plain`, which lacks the prefix `$`. -/
def mixedNames : List Event :=
  [Event.onEnterNode (some "A".toList) NodeType.LAYER,
    Event.onColorProperty (some "$x".toList) (fun _ => 1),
    Event.onOpacityProperty (some "$y".toList) (fun _ => 5),
    Event.onColorProperty (some "$z".toList) (fun _ => 7),
    Event.onLeavingNode (some "A".toList) NodeType.LAYER,
    Event.onEnterNode (some "B".toList) NodeType.LAYER,
    Event.onColorProperty (some "$x".toList) (fun _ => 2),
    Event.onColorProperty (some "plain".toList) (fun _ => 9),
    Event.onLeavingNode (some "B".toList) NodeType.LAYER]

/-- The collapse-mode manager after the pass `mixedNames`. -/
def mixedCollapsed : CustomPropertyManager :=
  { CustomPropertyManager.new Mode.kCollapseProperties none with
    fColorMap := [("$x".toList, [1, 2]), ("$z".toList, [7])]
    fOpacityMap := [("$y".toList, [5])] }

/-! ## Properties of the capture maps -/

namespace PropMap

theorem find_modify_self (m : PropMap) (key : PropKey) (f : PropGroup → PropGroup) :
    (m.modify key f).find key = some (f ((m.find key).getD [])) := by
  induction m with
  | nil => simp [modify, find]
  | cons kv rest ih =>
    obtain ⟨k, g⟩ := kv
    by_cases h : k = key
    · simp [modify, find, h]
    · simp [modify, find, h, ih]

theorem find_modify_of_ne (m : PropMap) {key other : PropKey} (f : PropGroup → PropGroup)
    (h : key ≠ other) : (m.modify key f).find other = m.find other := by
  induction m with
  | nil => simp [modify, find, h]
  | cons kv rest ih =>
    obtain ⟨k, g⟩ := kv
    by_cases hk : k = key
    · subst hk
      simp [modify, find, h]
    · by_cases ho : k = other
      · subst ho
        simp [modify, find, hk]
      · simp [modify, find, hk, ho, ih]

theorem mem_keys_iff_find (m : PropMap) (key : PropKey) :
    key ∈ m.keys ↔ (m.find key).isSome = true := by
  induction m with
  | nil => simp [keys, find]
  | cons kv rest ih =>
    obtain ⟨k, g⟩ := kv
    by_cases h : k = key
    · simp [keys, find, h]
    · have ih' : key ∈ List.map Prod.fst rest ↔ (find rest key).isSome = true := ih
      simp only [keys, List.map_cons, List.mem_cons, find, h, if_false]
      rw [ih']
      constructor
      · rintro (h' | h')
        · exact absurd h'.symm h
        · exact h'
      · intro h'
        exact Or.inr h'

theorem keys_modify_of_mem (m : PropMap) (key : PropKey) (f : PropGroup → PropGroup)
    (h : key ∈ m.keys) : (m.modify key f).keys = m.keys := by
  induction m with
  | nil => simp [keys] at h
  | cons kv rest ih =>
    obtain ⟨k, g⟩ := kv
    by_cases hk : k = key
    · simp [modify, keys, hk]
    · have hrest : key ∈ keys rest := by
        simp only [keys, List.map_cons, List.mem_cons] at h
        rcases h with h | h
        · exact absurd h.symm hk
        · exact h
      have ih' := ih hrest
      simp only [keys] at ih'
      simp [modify, keys, hk, ih']

theorem keys_modify_of_not_mem (m : PropMap) (key : PropKey) (f : PropGroup → PropGroup)
    (h : key ∉ m.keys) : (m.modify key f).keys = m.keys ++ [key] := by
  induction m with
  | nil => simp [modify, keys]
  | cons kv rest ih =>
    obtain ⟨k, g⟩ := kv
    have hk : k ≠ key := by
      intro hk
      apply h
      simp [keys, hk]
    have hrest : key ∉ keys rest := by
      intro hr
      apply h
      simp only [keys, List.map_cons, List.mem_cons]
      exact Or.inr hr
    have ih' := ih hrest
    simp only [keys] at ih'
    simp [modify, keys, hk, ih']

theorem occurs_once_of_nodup (l : List PropKey) (key : PropKey) (hnd : l.Nodup)
    (hmem : key ∈ l) : (l.filter fun k => decide (k = key)).length = 1 := by
  induction l with
  | nil => simp at hmem
  | cons a t ih =>
    obtain ⟨hat, ht⟩ := List.nodup_cons.mp hnd
    by_cases ha : a = key
    · subst ha
      have hnil : t.filter (fun k => decide (k = a)) = [] := by
        rw [List.filter_eq_nil_iff]
        intro x hx
        have hxa : x ≠ a := fun h => hat (h ▸ hx)
        simpa using hxa
      simp [List.filter_cons, hnil]
    · have hmem' : key ∈ t := by
        rcases List.mem_cons.mp hmem with h | h
        · exact absurd h.symm ha
        · exact h
      simp [List.filter_cons, ha, ih ht hmem']

theorem nodup_keys_modify (m : PropMap) (key : PropKey) (f : PropGroup → PropGroup)
    (h : m.keys.Nodup) : (m.modify key f).keys.Nodup := by
  by_cases hk : key ∈ m.keys
  · rw [keys_modify_of_mem m key f hk]
    exact h
  · rw [keys_modify_of_not_mem m key f hk]
    exact List.Nodup.append h (List.nodup_singleton key) (by simpa using hk)

end PropMap

/-! ## The prefix filter -/

namespace CustomPropertyManager

theorem acceptKey_rejects_unprefixed (m : CustomPropertyManager) (node_name suffix : Str)
    (c : LazyHandle) (h : SkStrStartsWith node_name m.fPrefix = false) :
    m.acceptKey (some node_name) suffix = some [] ∧
      PropertyInterceptor.onColorProperty m (some node_name) c = some m ∧
      PropertyInterceptor.onOpacityProperty m (some node_name) c = some m ∧
      PropertyInterceptor.onTransformProperty m (some node_name) c = some m ∧
      PropertyInterceptor.onTextProperty m (some node_name) c = some m := by
  have hkey : ∀ sfx : Str, m.acceptKey (some node_name) sfx = some [] := by
    intro sfx
    simp [acceptKey, h]
  refine ⟨hkey suffix, ?_, ?_, ?_, ?_⟩
  · simp [PropertyInterceptor.onColorProperty, hkey]
  · simp [PropertyInterceptor.onOpacityProperty, hkey]
  · simp [PropertyInterceptor.onTransformProperty, hkey]
  · simp [PropertyInterceptor.onTextProperty, hkey]

/-- C1: a property callback of `PropertyInterceptor` called with a null node name, which is
no string and so does not start with the prefix, does not complete: `acceptKey` hands the
null name to `SkStrStartsWith`, so no empty key comes back and the callback does not return
the manager; this is so for the manager `fillManager` and for every other one, in every mode
and with every prefix, path and suffix.  For every non-null name that does not start with the
prefix, in every mode and with every prefix and path, `acceptKey` returns the empty key and
the callback of every kind returns the manager as it was, with no key added to any of the
four capture maps and no handle appended. -/
theorem acceptKey_faults_on_null_name :
    fillManager.acceptKey none ".Color".toList = none ∧
      PropertyInterceptor.onColorProperty fillManager none (fun _ => 3) = none ∧
      (∀ (m : CustomPropertyManager) (suffix : Str) (c : LazyHandle),
        m.acceptKey none suffix = none ∧
          PropertyInterceptor.onColorProperty m none c = none ∧
          PropertyInterceptor.onOpacityProperty m none c = none ∧
          PropertyInterceptor.onTransformProperty m none c = none ∧
          PropertyInterceptor.onTextProperty m none c = none) ∧
      ∀ (m : CustomPropertyManager) (node_name suffix : Str) (c : LazyHandle),
        SkStrStartsWith node_name m.fPrefix = false →
        m.acceptKey (some node_name) suffix = some [] ∧
          PropertyInterceptor.onColorProperty m (some node_name) c = some m ∧
          PropertyInterceptor.onOpacityProperty m (some node_name) c = some m ∧
          PropertyInterceptor.onTransformProperty m (some node_name) c = some m ∧
          PropertyInterceptor.onTextProperty m (some node_name) c = some m :=
  ⟨rfl, rfl, fun _ _ _ => ⟨rfl, rfl, rfl, rfl, rfl⟩,
    fun m node_name suffix c h => acceptKey_rejects_unprefixed m node_name suffix c h⟩

end CustomPropertyManager

/-! ## Traversals in collapse mode -/

namespace CustomPropertyManager.PropertyInterceptor

theorem dispatch_of_property {e : Event} {k : PropKind} {name : Option Str} {c : LazyHandle}
    (h : e.property? = some (k, name, c)) (m : CustomPropertyManager) :
    dispatch m e = k.deliver m name c := by
  cases e <;> simp [Event.property?] at h <;> obtain ⟨rfl, rfl, rfl⟩ := h <;> rfl

theorem dispatch_of_node {e : Event} (h : e.property? = none) (m : CustomPropertyManager) :
    ∃ m', dispatch m e = some m' ∧ m'.fMode = m.fMode ∧ m'.fPrefix = m.fPrefix ∧
      ∀ k : PropKind, k.propMap m' = k.propMap m := by
  cases e with
  | onEnterNode n ty =>
    refine ⟨onEnterNode m n ty, rfl, ?_⟩
    cases n <;> refine ⟨rfl, rfl, fun k => ?_⟩ <;> cases k <;> rfl
  | onLeavingNode n ty =>
    refine ⟨onLeavingNode m n ty, rfl, ?_⟩
    cases n <;> refine ⟨rfl, rfl, fun k => ?_⟩ <;> cases k <;> rfl
  | _ => simp [Event.property?] at h

theorem deliver_collapse (k' : PropKind) (m : CustomPropertyManager) (n' : Str)
    (c : LazyHandle) (hmode : m.fMode = Mode.kCollapseProperties) :
    ∃ m', k'.deliver m (some n') c = some m' ∧ m'.fMode = m.fMode ∧ m'.fPrefix = m.fPrefix ∧
      (∀ k : PropKind, k ≠ k' → k.propMap m' = k.propMap m) ∧
      k'.propMap m' =
        if SkStrStartsWith n' m.fPrefix = true ∧ n' ≠ [] then
          (k'.propMap m).pushBack n' (c ())
        else k'.propMap m := by
  by_cases hacc : SkStrStartsWith n' m.fPrefix = true
  · by_cases hne : n' = []
    · refine ⟨m, ?_, rfl, rfl, fun _ _ => rfl, by simp [hne]⟩
      cases k' <;>
        simp [PropKind.deliver, onColorProperty, onOpacityProperty, onTransformProperty,
          onTextProperty, acceptKey, hacc, hmode, hne]
    · cases k'
      · refine ⟨{ m with fColorMap := m.fColorMap.pushBack n' (c ()) }, ?_, rfl, rfl, ?_, ?_⟩
        · simp [PropKind.deliver, onColorProperty, acceptKey, hacc, hmode, hne]
        · intro k hk
          cases k <;> first | rfl | exact absurd rfl hk
        · simp [PropKind.propMap, hacc, hne]
      · refine ⟨{ m with fOpacityMap := m.fOpacityMap.pushBack n' (c ()) }, ?_, rfl, rfl, ?_, ?_⟩
        · simp [PropKind.deliver, onOpacityProperty, acceptKey, hacc, hmode, hne]
        · intro k hk
          cases k <;> first | rfl | exact absurd rfl hk
        · simp [PropKind.propMap, hacc, hne]
      · refine ⟨{ m with fTransformMap := m.fTransformMap.pushBack n' (c ()) }, ?_, rfl, rfl,
          ?_, ?_⟩
        · simp [PropKind.deliver, onTransformProperty, acceptKey, hacc, hmode, hne]
        · intro k hk
          cases k <;> first | rfl | exact absurd rfl hk
        · simp [PropKind.propMap, hacc, hne]
      · refine ⟨{ m with fTextMap := m.fTextMap.pushBack n' (c ()) }, ?_, rfl, rfl, ?_, ?_⟩
        · simp [PropKind.deliver, onTextProperty, acceptKey, hacc, hmode, hne]
        · intro k hk
          cases k <;> first | rfl | exact absurd rfl hk
        · simp [PropKind.propMap, hacc, hne]
  · refine ⟨m, ?_, rfl, rfl, fun _ _ => rfl, by simp [hacc]⟩
    cases k' <;>
      simp [PropKind.deliver, onColorProperty, onOpacityProperty, onTransformProperty,
        onTextProperty, acceptKey, hacc]

theorem handlesOf_cons (k : PropKind) (n : Str) (e : Event) (es : List Event) :
    handlesOf k n (e :: es) = handlesOf k n [e] ++ handlesOf k n es := by
  simp only [handlesOf, List.filterMap_cons, List.filterMap_nil]
  split <;> simp

theorem dispatch_collapse_group (m : CustomPropertyManager) (e : Event)
    (hmode : m.fMode = Mode.kCollapseProperties) (hnamed : e.named = true) :
    ∃ m', dispatch m e = some m' ∧ m'.fMode = m.fMode ∧ m'.fPrefix = m.fPrefix ∧
      (∀ k : PropKind, (k.propMap m).keys.Nodup → (k.propMap m').keys.Nodup) ∧
      ∀ (k : PropKind) (n : Str),
        groupOf k m' n = groupOf k m n ++
          if n ≠ [] ∧ SkStrStartsWith n m.fPrefix = true then handlesOf k n [e] else [] := by
  cases hp : e.property? with
  | none =>
    obtain ⟨m', hd, hm, hpre, hmaps⟩ := dispatch_of_node hp m
    refine ⟨m', hd, hm, hpre, fun k hk => by rw [hmaps k]; exact hk, fun k n => ?_⟩
    simp [groupOf, hmaps k, handlesOf, hp]
  | some t =>
    obtain ⟨k', name, c⟩ := t
    cases name with
    | none => simp [Event.named, hp] at hnamed
    | some n' =>
      obtain ⟨m', hd, hm, hpre, hother, hself⟩ := deliver_collapse k' m n' c hmode
      refine ⟨m', by rw [dispatch_of_property hp m]; exact hd, hm, hpre, ?_, ?_⟩
      · intro k hk
        by_cases hkk : k = k'
        · subst hkk
          rw [hself]
          split
          · exact PropMap.nodup_keys_modify _ _ _ hk
          · exact hk
        · rw [hother k hkk]
          exact hk
      · intro k n
        by_cases hkk : k = k'
        · subst hkk
          by_cases hnn : n' = n
          · subst hnn
            by_cases hcond : n' ≠ [] ∧ SkStrStartsWith n' m.fPrefix = true
            · have hcond' : SkStrStartsWith n' m.fPrefix = true ∧ n' ≠ [] :=
                ⟨hcond.2, hcond.1⟩
              rw [if_pos hcond]
              simp [groupOf, hself, hcond', PropMap.pushBack, PropMap.find_modify_self,
                handlesOf, hp]
            · have hcond' : ¬ (SkStrStartsWith n' m.fPrefix = true ∧ n' ≠ []) :=
                fun h => hcond ⟨h.2, h.1⟩
              rw [if_neg hcond]
              simp [groupOf, hself, hcond']
          · have hfind : (k.propMap m').find n = (k.propMap m).find n := by
              rw [hself]
              split
              · exact PropMap.find_modify_of_ne _ _ hnn
              · rfl
            simp [groupOf, hfind, handlesOf, hp, hnn]
        · have hkk' : ¬ k' = k := fun h => hkk h.symm
          simp [groupOf, hother k hkk, handlesOf, hp, hkk']

theorem traverse_collapse_group (evs : List Event) (m : CustomPropertyManager)
    (hmode : m.fMode = Mode.kCollapseProperties) (hnamed : ∀ e ∈ evs, e.named = true) :
    ∃ m', traverse m evs = some m' ∧ m'.fMode = m.fMode ∧ m'.fPrefix = m.fPrefix ∧
      (∀ k : PropKind, (k.propMap m).keys.Nodup → (k.propMap m').keys.Nodup) ∧
      ∀ (k : PropKind) (n : Str),
        groupOf k m' n = groupOf k m n ++
          if n ≠ [] ∧ SkStrStartsWith n m.fPrefix = true then handlesOf k n evs else [] := by
  induction evs generalizing m with
  | nil => exact ⟨m, rfl, rfl, rfl, fun _ h => h, fun k n => by simp [handlesOf]⟩
  | cons e es ih =>
    obtain ⟨m₁, hd, hm₁, hp₁, hnd₁, hg₁⟩ :=
      dispatch_collapse_group m e hmode (hnamed e (List.mem_cons_self e es))
    obtain ⟨m₂, ht, hm₂, hp₂, hnd₂, hg₂⟩ :=
      ih m₁ (hm₁.trans hmode) (fun e' he' => hnamed e' (List.mem_cons_of_mem e he'))
    refine ⟨m₂, by simp [traverse, hd, ht], hm₂.trans hm₁, hp₂.trans hp₁,
      fun k hk => hnd₂ k (hnd₁ k hk), fun k n => ?_⟩
    rw [hg₂ k n, hg₁ k n, hp₁, handlesOf_cons k n e es]
    by_cases hcond : n ≠ [] ∧ SkStrStartsWith n m.fPrefix = true
    · simp only [if_pos hcond, List.append_assoc]
    · simp only [if_neg hcond, List.append_nil]

theorem dispatch_named (m m' : CustomPropertyManager) (e : Event)
    (hd : dispatch m e = some m') : e.named = true := by
  cases hp : e.property? with
  | none => simp [Event.named, hp]
  | some t =>
    obtain ⟨k, name, c⟩ := t
    cases name with
    | some n => simp [Event.named, hp]
    | none =>
      rw [dispatch_of_property hp m] at hd
      cases k <;>
        simp [PropKind.deliver, onColorProperty, onOpacityProperty, onTransformProperty,
          onTextProperty, acceptKey] at hd

theorem traverse_named (evs : List Event) (m m' : CustomPropertyManager)
    (ht : traverse m evs = some m') : ∀ e ∈ evs, e.named = true := by
  induction evs generalizing m with
  | nil => simp
  | cons e es ih =>
    simp only [traverse] at ht
    cases hd : dispatch m e with
    | none => simp [hd] at ht
    | some m₁ =>
      rw [hd, Option.some_bind] at ht
      intro e' he'
      rcases List.mem_cons.mp he' with h | h
      · rw [h]
        exact dispatch_named m m₁ e hd
      · exact ih m₁ ht e' h

/-- C2 (amended): in collapse mode, deliver to a new manager any event sequence in which
exactly two callbacks of kind `k` carry the name `n`, where `n` is not the empty string and
starts with the configured prefix.  Whenever the pass completes (it does when no property
callback has a null name), the map of kind `k` holds `n` itself as a key exactly once, the
list under `n` is the two handles in visitation order, whatever nodes were entered or left,
and the list under every other key is made of the handles of the callbacks that carry that
other key as their name (none at all for a key that is empty or lacks the prefix): neither of
the two callbacks puts a handle under another key. -/
theorem collapse_same_name_one_key (prefixp : Option Str) (k : PropKind) (n : Str)
    (evs : List Event) (h₁ h₂ : Handle) (hn : n ≠ [])
    (hacc : SkStrStartsWith n (new Mode.kCollapseProperties prefixp).fPrefix = true)
    (htwo : handlesOf k n evs = [h₁, h₂]) :
    ((∀ e ∈ evs, e.named = true) →
        ∃ m', traverse (new Mode.kCollapseProperties prefixp) evs = some m') ∧
      ∀ m', traverse (new Mode.kCollapseProperties prefixp) evs = some m' →
        (k.propMap m').find n = some [h₁, h₂] ∧
          ((k.propMap m').keys.filter fun key => decide (key = n)).length = 1 ∧
          (∀ key, key ≠ n → groupOf k m' key =
            if key ≠ [] ∧
                SkStrStartsWith key (new Mode.kCollapseProperties prefixp).fPrefix = true then
              handlesOf k key evs
            else []) ∧
          ∀ key, key ≠ n → ∀ h ∈ groupOf k m' key, h ∈ handlesOf k key evs := by
  have hrun : ∀ hnamed : (∀ e ∈ evs, e.named = true),
      ∃ m', traverse (new Mode.kCollapseProperties prefixp) evs = some m' := fun hnamed => by
    obtain ⟨m', ht, _⟩ :=
      traverse_collapse_group evs (new Mode.kCollapseProperties prefixp) rfl hnamed
    exact ⟨m', ht⟩
  refine ⟨hrun, fun m₀ hm₀ => ?_⟩
  obtain ⟨m', ht, _, _, hnd, hg⟩ :=
    traverse_collapse_group evs (new Mode.kCollapseProperties prefixp) rfl
      (traverse_named evs _ m₀ hm₀)
  rw [hm₀, Option.some.injEq] at ht
  subst ht
  have hbase : ∀ key, groupOf k (new Mode.kCollapseProperties prefixp) key = [] := by
    intro key
    cases k <;> rfl
  have hall : ∀ key, groupOf k m₀ key =
      if key ≠ [] ∧
          SkStrStartsWith key (new Mode.kCollapseProperties prefixp).fPrefix = true then
        handlesOf k key evs
      else [] := by
    intro key
    rw [hg k key, hbase key, List.nil_append]
  have hgroup : groupOf k m₀ n = [h₁, h₂] := by
    rw [hall n, if_pos ⟨hn, hacc⟩, htwo]
  have hfind : (k.propMap m₀).find n = some [h₁, h₂] := by
    unfold groupOf at hgroup
    cases hf : (k.propMap m₀).find n with
    | none => simp [hf] at hgroup
    | some g =>
      rw [hf] at hgroup
      exact congrArg some hgroup
  refine ⟨hfind, ?_, fun key _ => hall key, fun key _ h hh => ?_⟩
  · have hmem : n ∈ (k.propMap m₀).keys := by
      rw [PropMap.mem_keys_iff_find, hfind]
      rfl
    have hnodup : (k.propMap m₀).keys.Nodup := hnd k (by cases k <;> exact List.nodup_nil)
    exact PropMap.occurs_once_of_nodup _ n hnodup hmem
  · rw [hall key] at hh
    split at hh
    · exact hh
    · simp at hh

/-- C2 (amended) at a concrete input: in the pass `mixedNames` two colours named `$x` sit in
the sibling layers `A` and `B`, next to a colour `$z`, an opacity `$y` and a colour `plain`
without the prefix.  The pass ends in `mixedCollapsed`, whose colour map holds `$x` with the
handles 1 and 2 and `$z` with the handle 7; `$x` is a key once, and every other key holds the
handles of the colours of that name. -/
theorem collapse_same_name_one_key_witness :
    traverse (new Mode.kCollapseProperties none) mixedNames = some mixedCollapsed ∧
      mixedCollapsed.fColorMap = [("$x".toList, [1, 2]), ("$z".toList, [7])] ∧
      groupOf PropKind.color mixedCollapsed "$z".toList = [7] ∧
      groupOf PropKind.color mixedCollapsed "plain".toList = [] ∧
      (PropKind.color.propMap mixedCollapsed).find "$x".toList = some [1, 2] ∧
      ((PropKind.color.propMap mixedCollapsed).keys.filter
        fun key => decide (key = "$x".toList)).length = 1 ∧
      (∀ key, key ≠ "$x".toList → groupOf PropKind.color mixedCollapsed key =
        if key ≠ [] ∧
            SkStrStartsWith key (new Mode.kCollapseProperties none).fPrefix = true then
          handlesOf PropKind.color key mixedNames
        else []) ∧
      ∀ key, key ≠ "$x".toList → ∀ h ∈ groupOf PropKind.color mixedCollapsed key,
        h ∈ handlesOf PropKind.color key mixedNames :=
  ⟨by decide, by decide, by decide, by decide,
    (collapse_same_name_one_key none PropKind.color "$x".toList mixedNames 1 2 (by decide)
      (by decide) (by decide)).2 mixedCollapsed (by decide)⟩

/-- C2 as stated fails for the empty name under the empty prefix: the name passes the prefix
filter and two colour callbacks carry it, yet the pass leaves the colour map without any key,
because the key of the empty name is the empty key. -/
theorem collapse_empty_name_not_captured :
    SkStrStartsWith [] (new Mode.kCollapseProperties (some [])).fPrefix = true ∧
      handlesOf PropKind.color [] twoUnnamed = [1, 2] ∧
      traverse (new Mode.kCollapseProperties (some [])) twoUnnamed =
        some (new Mode.kCollapseProperties (some [])) ∧
      (new Mode.kCollapseProperties (some [])).fColorMap.find [] = none := by
  refine ⟨by decide, by decide, by decide, by decide⟩

end CustomPropertyManager.PropertyInterceptor

/-! ## The node path -/

namespace CustomPropertyManager.PropertyInterceptor

theorem onEnterNode_path (m : CustomPropertyManager) (n : Option Str) (ty : NodeType) :
    onEnterNode m n ty = { m with fCurrentNode := pushName m.fCurrentNode n } := by
  cases n <;> rfl

theorem sizeSub_of_le {a b : Nat} (h : b ≤ a) : sizeSub a b = a - b := by
  simp [sizeSub, h]

theorem onLeavingNode_of_push (m : CustomPropertyManager) (p : Str) (n : Option Str)
    (ty : NodeType) (h : m.fCurrentNode = pushName p n) :
    onLeavingNode m n ty = { m with fCurrentNode := p } := by
  cases n with
  | none =>
    simp only [pushName] at h
    simp [onLeavingNode, ← h]
  | some s =>
    by_cases hp : p = []
    · subst hp
      simp only [pushName, List.isEmpty_nil, if_true] at h
      simp [onLeavingNode, h, strlen]
    · have hpath : m.fCurrentNode = p ++ ".".toList ++ s := by
        simpa [pushName, hp] using h
      have hlen : m.fCurrentNode.length = p.length + 1 + s.length := by
        rw [hpath]
        simp only [List.length_append, String.toList, List.length_cons, List.length_nil]
      have hgt : m.fCurrentNode.length > s.length := by omega
      have h1 : sizeSub m.fCurrentNode.length (strlen s) = p.length + 1 := by
        rw [sizeSub_of_le (by simp only [strlen]; omega)]
        simp only [strlen]
        omega
      have h2 : sizeSub (p.length + 1) 1 = p.length := by
        rw [sizeSub_of_le (by omega)]
        omega
      have htake : substr m.fCurrentNode 0 p.length = p := by
        rw [hpath]
        simp [substr, List.append_assoc]
      simp only [onLeavingNode, strlen] at h1 ⊢
      simp only [strlen, hgt, if_true, h1, h2, htake]

theorem onLeavingNode_onEnterNode (m : CustomPropertyManager) (n : Option Str)
    (ty ty' : NodeType) : onLeavingNode (onEnterNode m n ty) n ty' = m := by
  rw [onLeavingNode_of_push (onEnterNode m n ty) m.fCurrentNode n ty'
    (by rw [onEnterNode_path])]
  rw [onEnterNode_path]

theorem acceptKey_some (m : CustomPropertyManager) (n suffix : Str) :
    ∃ key, m.acceptKey (some n) suffix = some key := by
  simp only [acceptKey]
  split <;> exact ⟨_, rfl⟩

theorem deliver_some (k : PropKind) (m : CustomPropertyManager) (n : Str) (c : LazyHandle) :
    ∃ m', k.deliver m (some n) c = some m' ∧ m'.fCurrentNode = m.fCurrentNode ∧
      m'.fMode = m.fMode ∧ m'.fPrefix = m.fPrefix := by
  obtain ⟨key, hkey⟩ := acceptKey_some m n k.suffix
  cases k <;>
    simp only [PropKind.suffix] at hkey <;>
    simp only [PropKind.deliver, onColorProperty, onOpacityProperty, onTransformProperty,
      onTextProperty, hkey, Option.map] <;>
    split <;> exact ⟨_, rfl, rfl, rfl, rfl⟩

theorem traverse_append (m : CustomPropertyManager) (es₁ es₂ : List Event) :
    traverse m (es₁ ++ es₂) = (traverse m es₁).bind fun m' => traverse m' es₂ := by
  induction es₁ generalizing m with
  | nil => simp [traverse]
  | cons e es ih =>
    simp only [List.cons_append, traverse]
    cases dispatch m e with
    | none => rfl
    | some m₁ => simp [ih]

theorem named_of_isNodeEvent {e : Event} (h : e.isNodeEvent = true) : e.named = true := by
  cases e <;> simp [Event.isNodeEvent, Event.property?] at h <;> rfl

theorem traverse_path (evs : List Event) (m : CustomPropertyManager) (base : Str)
    (open_ open' : List (Option Str)) (hnamed : ∀ e ∈ evs, e.named = true)
    (hopen : openNodes open_ evs = some open')
    (hpath : m.fCurrentNode = pathOfOpen base open_) :
    ∃ m', traverse m evs = some m' ∧ m'.fCurrentNode = pathOfOpen base open' ∧
      m'.fMode = m.fMode ∧ m'.fPrefix = m.fPrefix := by
  induction evs generalizing m open_ with
  | nil =>
    simp only [openNodes, Option.some.injEq] at hopen
    subst hopen
    exact ⟨m, rfl, hpath, rfl, rfl⟩
  | cons e es ih =>
    have hrest : ∀ e' ∈ es, e'.named = true := fun e' he' =>
      hnamed e' (List.mem_cons_of_mem e he')
    cases hp : e.property? with
    | some t =>
      obtain ⟨k, name, c⟩ := t
      cases name with
      | none =>
        have := hnamed e (List.mem_cons_self e es)
        simp [Event.named, hp] at this
      | some n =>
        obtain ⟨m₁, hd, hpath₁, hmode₁, hpre₁⟩ := deliver_some k m n c
        have hopen' : openNodes open_ es = some open' := by
          cases e <;> simp [Event.property?] at hp <;> simpa [openNodes] using hopen
        obtain ⟨m₂, ht, hpath₂, hmode₂, hpre₂⟩ := ih m₁ open_ hrest hopen' (hpath₁.trans hpath)
        refine ⟨m₂, ?_, hpath₂, hmode₂.trans hmode₁, hpre₂.trans hpre₁⟩
        simp [traverse, dispatch_of_property hp m, hd, ht]
    | none =>
      cases e with
      | onEnterNode n ty =>
        simp only [openNodes] at hopen
        obtain ⟨m₂, ht, hpath₂, hmode₂, hpre₂⟩ :=
          ih (onEnterNode m n ty) (n :: open_) hrest hopen
            (by rw [onEnterNode_path, pathOfOpen, hpath])
        refine ⟨m₂, ?_, hpath₂, ?_, ?_⟩
        · simp [traverse, dispatch, ht]
        · rw [hmode₂, onEnterNode_path]
        · rw [hpre₂, onEnterNode_path]
      | onLeavingNode n ty =>
        cases open_ with
        | nil => simp [openNodes] at hopen
        | cons top below =>
          simp only [openNodes] at hopen
          by_cases htop : top = n
          · subst htop
            simp only [if_true] at hopen
            have hleave := onLeavingNode_of_push m (pathOfOpen base below) top ty
              (by rw [hpath, pathOfOpen])
            obtain ⟨m₂, ht, hpath₂, hmode₂, hpre₂⟩ :=
              ih (onLeavingNode m top ty) below hrest hopen (by rw [hleave])
            refine ⟨m₂, ?_, hpath₂, ?_, ?_⟩
            · simp [traverse, dispatch, ht]
            · rw [hmode₂, hleave]
            · rw [hpre₂, hleave]
          · simp [htop] at hopen
      | _ => simp [Event.property?] at hp

theorem traverse_nodes_only (evs : List Event) (m m' : CustomPropertyManager)
    (hnode : ∀ e ∈ evs, e.isNodeEvent = true) (ht : traverse m evs = some m') :
    m' = { m with fCurrentNode := m'.fCurrentNode } := by
  induction evs generalizing m with
  | nil =>
    simp only [traverse, Option.some.injEq] at ht
    subst ht
    rfl
  | cons e es ih =>
    have hrest : ∀ e' ∈ es, e'.isNodeEvent = true := fun e' he' =>
      hnode e' (List.mem_cons_of_mem e he')
    have he := hnode e (List.mem_cons_self e es)
    cases e with
    | onEnterNode n ty =>
      simp only [traverse, dispatch, Option.some_bind] at ht
      rw [ih (onEnterNode m n ty) hrest ht, onEnterNode_path]
    | onLeavingNode n ty =>
      simp only [traverse, dispatch, Option.some_bind] at ht
      rw [ih (onLeavingNode m n ty) hrest ht]
      cases n <;> rfl
    | _ => simp [Event.isNodeEvent, Event.property?] at he

/-- C8: leaving a node with a non-null name `n` sets the path to the empty string when the
path is not longer than `n`, and otherwise keeps its first `length - length n - 1` characters;
nothing else in the manager changes.  In the second case the `size_t` computation of the
count equals the exact integer difference, which is not negative, so it never wraps.  A null
name leaves the manager as it was. -/
theorem onLeavingNode_truncation (m : CustomPropertyManager) (n : Str) (ty : NodeType) :
    onLeavingNode m (some n) ty =
        { m with
          fCurrentNode :=
            if m.fCurrentNode.length ≤ n.length then []
            else m.fCurrentNode.take (m.fCurrentNode.length - n.length - 1) } ∧
      (m.fCurrentNode.length ≤ n.length ∨
        ((0 : Int) ≤ (m.fCurrentNode.length : Int) - (n.length : Int) - 1 ∧
          ((sizeSub (sizeSub m.fCurrentNode.length (strlen n)) 1 : Nat) : Int) =
            (m.fCurrentNode.length : Int) - (n.length : Int) - 1)) ∧
      onLeavingNode m none ty = m := by
  refine ⟨?_, ?_, rfl⟩
  · by_cases h : m.fCurrentNode.length ≤ n.length
    · have h' : ¬ m.fCurrentNode.length > n.length := by omega
      simp [onLeavingNode, strlen, h, h']
    · have h' : m.fCurrentNode.length > n.length := by omega
      have h1 : sizeSub m.fCurrentNode.length n.length = m.fCurrentNode.length - n.length :=
        sizeSub_of_le (by omega)
      have h2 : sizeSub (m.fCurrentNode.length - n.length) 1 =
          m.fCurrentNode.length - n.length - 1 := sizeSub_of_le (by omega)
      simp [onLeavingNode, strlen, h, h', h1, h2, substr]
  · by_cases h : m.fCurrentNode.length ≤ n.length
    · exact Or.inl h
    · refine Or.inr ⟨by omega, ?_⟩
      have h1 : sizeSub m.fCurrentNode.length n.length = m.fCurrentNode.length - n.length :=
        sizeSub_of_le (by omega)
      have h2 : sizeSub (m.fCurrentNode.length - n.length) 1 =
          m.fCurrentNode.length - n.length - 1 := sizeSub_of_le (by omega)
      simp only [strlen, h1, h2]
      omega

/-- C7: a well-nested sequence of `onEnterNode` / `onLeavingNode` events, with any names
(null names included), runs to completion and leaves the manager, and so the node path, as it
was: from the empty path it returns to the empty path.  The same holds for the sequence
wrapped in one more matched enter and leave of any name `n`, so every matched pair restores
the path that held just before its enter. -/
theorem wellNested_restores_path (m : CustomPropertyManager) (evs : List Event)
    (hnest : wellNested evs = true) (hnode : ∀ e ∈ evs, e.isNodeEvent = true) :
    traverse m evs = some m ∧
      ∀ (n : Option Str) (ty ty' : NodeType),
        traverse m (Event.onEnterNode n ty :: evs ++ [Event.onLeavingNode n ty']) = some m := by
  have hopen : openNodes [] evs = some [] := by simpa [wellNested] using hnest
  have hnamed : ∀ e ∈ evs, e.named = true := fun e he => named_of_isNodeEvent (hnode e he)
  have key : ∀ m₀ : CustomPropertyManager, traverse m₀ evs = some m₀ := by
    intro m₀
    obtain ⟨m', ht, hpath, _, _⟩ := traverse_path evs m₀ m₀.fCurrentNode [] [] hnamed hopen rfl
    rw [ht, traverse_nodes_only evs m₀ m' hnode ht, hpath]
    rfl
  refine ⟨key m, fun n ty ty' => ?_⟩
  show traverse m (Event.onEnterNode n ty :: (evs ++ [Event.onLeavingNode n ty'])) = some m
  simp only [traverse, dispatch, Option.some_bind]
  rw [traverse_append, key]
  simp [traverse, dispatch, onLeavingNode_onEnterNode]

/-- C7 at a concrete input: a layer holding a node without a name and a node named `B.c`,
from the empty path. -/
theorem wellNested_restores_path_witness :
    traverse (new Mode.kNamespacedProperties none) nestedNodes =
        some (new Mode.kNamespacedProperties none) ∧
      (new Mode.kNamespacedProperties none).fCurrentNode = [] :=
  ⟨(wellNested_restores_path (new Mode.kNamespacedProperties none) nestedNodes (by decide)
      (by decide)).1, rfl⟩

/-! ## Keys in namespaced mode -/

theorem pathOfOpen_filterMap (open_ : List (Option Str)) :
    pathOfOpen [] open_ = pathOfOpen [] ((open_.filterMap id).map some) := by
  induction open_ with
  | nil => rfl
  | cons n below ih =>
    cases n with
    | none => simpa [pathOfOpen, pushName] using ih
    | some s => simp [pathOfOpen, ih]

theorem pathOfOpen_cons_some (s : Str) (below : List Str) :
    pathOfOpen [] ((s :: below).map some) =
      if pathOfOpen [] (below.map some) = [] then s
      else pathOfOpen [] (below.map some) ++ '.' :: s := by
  simp [pathOfOpen, pushName, List.isEmpty_iff]

theorem pathOfOpen_ne_nil (xs : List Str) (hne : xs ≠ []) (hroot : xs.getLast? ≠ some []) :
    pathOfOpen [] (xs.map some) ≠ [] := by
  induction xs with
  | nil => exact absurd rfl hne
  | cons s below ih =>
    rw [pathOfOpen_cons_some]
    cases below with
    | nil =>
      have hs : s ≠ [] := fun h => hroot (by simp [h])
      simpa [pathOfOpen] using hs
    | cons b bs =>
      have hbelow := ih (List.cons_ne_nil b bs) (by simpa using hroot)
      rw [if_neg hbelow]
      simp

theorem openNodes_append (a b : List Event) (open_ : List (Option Str)) :
    openNodes open_ (a ++ b) = (openNodes open_ a).bind fun open' => openNodes open' b := by
  induction a generalizing open_ with
  | nil => simp [openNodes]
  | cons e es ih =>
    cases e with
    | onLeavingNode n ty =>
      cases open_ with
      | nil => simp [openNodes]
      | cons top below =>
        by_cases h : top = n
        · simp [openNodes, h, ih]
        · simp [openNodes, h]
    | _ => simp [openNodes, ih]

theorem traverse_some_of_named (mode : Mode) (prefixp : Option Str) (evs pre rest : List Event)
    (hnest : wellNested evs = true) (hsplit : evs = pre ++ rest)
    (hnamed : ∀ e ∈ pre, e.named = true) :
    ∃ m, traverse (new mode prefixp) pre = some m := by
  have hopen : openNodes [] evs = some [] := by simpa [wellNested] using hnest
  have hbind := openNodes_append pre rest []
  rw [← hsplit, hopen] at hbind
  cases ho : openNodes [] pre with
  | none => simp [ho] at hbind
  | some open_ =>
    obtain ⟨m, ht, _⟩ := traverse_path pre (new mode prefixp) [] [] open_ hnamed ho rfl
    exact ⟨m, ht⟩

theorem path_after (mode : Mode) (prefixp : Option Str) (evs pre rest : List Event)
    (m : CustomPropertyManager) (hnest : wellNested evs = true) (hsplit : evs = pre ++ rest)
    (ht : traverse (new mode prefixp) pre = some m) :
    ∃ open_, openNodes [] pre = some open_ ∧
      m.fCurrentNode = pathOfOpen [] ((open_.filterMap id).map some) ∧
      m.fMode = mode ∧ m.fPrefix = (new mode prefixp).fPrefix := by
  have hopen : openNodes [] evs = some [] := by simpa [wellNested] using hnest
  have hbind := openNodes_append pre rest []
  rw [← hsplit, hopen] at hbind
  cases ho : openNodes [] pre with
  | none => simp [ho] at hbind
  | some open_ =>
    obtain ⟨m', ht', hpath, hmode, hpre⟩ :=
      traverse_path pre (new mode prefixp) [] [] open_ (traverse_named pre _ m ht) ho rfl
    rw [ht, Option.some.injEq] at ht'
    subst ht'
    exact ⟨open_, rfl, by rw [hpath, pathOfOpen_filterMap], hmode, hpre⟩

theorem ancestorNames_eq (open_ : List (Option Str)) :
    ancestorNames open_ = (open_.filterMap id).reverse := by
  simp [ancestorNames, List.filterMap_reverse]

end CustomPropertyManager.PropertyInterceptor

/-! ## Reading and writing captured properties -/

namespace HandleStore

variable {V : Type}

theorem setAll_cons (s : HandleStore V) (h : Handle) (group : List Handle) (v : V) :
    s.setAll (h :: group) v = (s.set h v).setAll group v := rfl

theorem setAll_value_of_not_mem (group : List Handle) (s : HandleStore V) (v : V) (h : Handle)
    (hmem : h ∉ group) : (s.setAll group v).value h = s.value h := by
  induction group generalizing s with
  | nil => rfl
  | cons g gs ih =>
    rw [setAll_cons, ih (s.set g v) (fun hin => hmem (List.mem_cons_of_mem g hin))]
    have hne : h ≠ g := fun heq => hmem (heq ▸ List.mem_cons_self h gs)
    simp [set, hne]

theorem setAll_value_of_mem (group : List Handle) (s : HandleStore V) (v : V) (h : Handle)
    (hmem : h ∈ group) : (s.setAll group v).value h = v := by
  induction group generalizing s with
  | nil => simp at hmem
  | cons g gs ih =>
    rw [setAll_cons]
    by_cases hin : h ∈ gs
    · exact ih (s.set g v) hin
    · rw [setAll_value_of_not_mem gs (s.set g v) v h hin]
      rcases List.mem_cons.mp hmem with heq | hin'
      · simp [set, heq]
      · exact absurd hin' hin

end HandleStore

namespace CustomPropertyManager

theorem set_of_find_some {V : Type} (key : PropKey) (val : V) (container : PropMap)
    (s : HandleStore V) (group : PropGroup) (h : container.find key = some group) :
    set key val container s = (true, s.setAll group val) := by
  simp [set, h]

theorem set_of_find_none {V : Type} (key : PropKey) (val : V) (container : PropMap)
    (s : HandleStore V) (h : container.find key = none) :
    set key val container s = (false, s) := by
  simp [set, h]

/-- C4: when `key` is present in the capture map of a kind with the handles `group`, the
setter of that kind returns true, leaves the manager as it is, and afterwards `get()` on every
handle of `group`, not only the first, returns the value written. -/
theorem setValue_known_key (m : CustomPropertyManager) (sc : Scene) (key : PropKey)
    (group : PropGroup) :
    (m.fColorMap.find key = some group → ∀ v : ColorPropertyValue,
        (m.setColor key v sc).1 = true ∧ (m.setColor key v sc).2.1 = m ∧
          ∀ h ∈ group, ((m.setColor key v sc).2.2.color.get h).1 = v) ∧
      (m.fOpacityMap.find key = some group → ∀ v : OpacityPropertyValue,
        (m.setOpacity key v sc).1 = true ∧ (m.setOpacity key v sc).2.1 = m ∧
          ∀ h ∈ group, ((m.setOpacity key v sc).2.2.opacity.get h).1 = v) ∧
      (m.fTransformMap.find key = some group → ∀ v : TransformPropertyValue,
        (m.setTransform key v sc).1 = true ∧ (m.setTransform key v sc).2.1 = m ∧
          ∀ h ∈ group, ((m.setTransform key v sc).2.2.transform.get h).1 = v) ∧
      (m.fTextMap.find key = some group → ∀ v : TextPropertyValue,
        (m.setText key v sc).1 = true ∧ (m.setText key v sc).2.1 = m ∧
          ∀ h ∈ group, ((m.setText key v sc).2.2.text.get h).1 = v) := by
  refine ⟨fun hf v => ?_, fun hf v => ?_, fun hf v => ?_, fun hf v => ?_⟩
  · simp only [setColor, set_of_find_some key v _ _ group hf, HandleStore.get]
    exact ⟨trivial, trivial, fun h hh => HandleStore.setAll_value_of_mem group _ v h hh⟩
  · simp only [setOpacity, set_of_find_some key v _ _ group hf, HandleStore.get]
    exact ⟨trivial, trivial, fun h hh => HandleStore.setAll_value_of_mem group _ v h hh⟩
  · simp only [setTransform, set_of_find_some key v _ _ group hf, HandleStore.get]
    exact ⟨trivial, trivial, fun h hh => HandleStore.setAll_value_of_mem group _ v h hh⟩
  · simp only [setText, set_of_find_some key v _ _ group hf, HandleStore.get]
    exact ⟨trivial, trivial, fun h hh => HandleStore.setAll_value_of_mem group _ v h hh⟩

/-- C4 at a concrete input: in collapse mode the pass `fillPass` puts the two colours named
`$fill1` under the one key `$fill1`, and `setColor("$fill1", RED)` returns true and makes both
handles red. -/
theorem setValue_known_key_witness :
    PropertyInterceptor.traverse (new Mode.kCollapseProperties none) fillPass =
        some fillManager ∧
      fillManager.getColorProps = some ["$fill1".toList] ∧
      (fillManager.setColor "$fill1".toList SK_ColorRED sampleScene).1 = true ∧
      ((fillManager.setColor "$fill1".toList SK_ColorRED sampleScene).2.2.color.get 1).1 =
        SK_ColorRED ∧
      ((fillManager.setColor "$fill1".toList SK_ColorRED sampleScene).2.2.color.get 2).1 =
        SK_ColorRED :=
  have hset := (setValue_known_key fillManager sampleScene "$fill1".toList [1, 2]).1
    (by decide) SK_ColorRED
  ⟨by decide, by decide, hset.1, hset.2.2 1 (by decide), hset.2.2 2 (by decide)⟩

/-- C5: when `key` is absent from the capture map of a kind, the setter of that kind returns
false and gives back the manager and the scene as they were: no `set()` reaches a handle of
any kind, no map gains a key, the node path stays. -/
theorem setValue_unknown_key (m : CustomPropertyManager) (sc : Scene) (key : PropKey) :
    (m.fColorMap.find key = none → ∀ v : ColorPropertyValue,
        m.setColor key v sc = (false, m, sc)) ∧
      (m.fOpacityMap.find key = none → ∀ v : OpacityPropertyValue,
        m.setOpacity key v sc = (false, m, sc)) ∧
      (m.fTransformMap.find key = none → ∀ v : TransformPropertyValue,
        m.setTransform key v sc = (false, m, sc)) ∧
      (m.fTextMap.find key = none → ∀ v : TextPropertyValue,
        m.setText key v sc = (false, m, sc)) := by
  refine ⟨fun hf v => ?_, fun hf v => ?_, fun hf v => ?_, fun hf v => ?_⟩
  · simp only [setColor, set_of_find_none key v _ _ hf]
  · simp only [setOpacity, set_of_find_none key v _ _ hf]
  · simp only [setTransform, set_of_find_none key v _ _ hf]
  · simp only [setText, set_of_find_none key v _ _ hf]

/-- C5 at a concrete input: the manager after `fillPass` knows no colour key `$fill2` and no
text key `$fill1`. -/
theorem setValue_unknown_key_witness :
    fillManager.setColor "$fill2".toList SK_ColorRED sampleScene =
        (false, fillManager, sampleScene) ∧
      fillManager.setText "$fill1".toList default sampleScene =
        (false, fillManager, sampleScene) :=
  ⟨(setValue_unknown_key fillManager sampleScene "$fill2".toList).1 (by decide) SK_ColorRED,
    (setValue_unknown_key fillManager sampleScene "$fill1".toList).2.2.2 (by decide) default⟩

theorem deliver_maps (k' : PropKind) (m m' : CustomPropertyManager) (name : Option Str)
    (c : LazyHandle) (h : k'.deliver m name c = some m') :
    (∀ k : PropKind, k ≠ k' → k.propMap m' = k.propMap m) ∧
      (k'.propMap m' = k'.propMap m ∨
        ∃ key, k'.propMap m' = (k'.propMap m).pushBack key (c ())) := by
  cases name with
  | none =>
    cases k' <;>
      simp [PropKind.deliver, PropertyInterceptor.onColorProperty,
        PropertyInterceptor.onOpacityProperty, PropertyInterceptor.onTransformProperty,
        PropertyInterceptor.onTextProperty, acceptKey] at h
  | some n =>
    obtain ⟨key, hkey⟩ := PropertyInterceptor.acceptKey_some m n k'.suffix
    cases k' <;> simp only [PropKind.suffix] at hkey <;>
      simp only [PropKind.deliver, PropertyInterceptor.onColorProperty,
        PropertyInterceptor.onOpacityProperty, PropertyInterceptor.onTransformProperty,
        PropertyInterceptor.onTextProperty, hkey, Option.map, Option.some.injEq] at h <;>
      subst h <;>
      refine ⟨fun k hk => ?_, ?_⟩ <;>
      split <;>
      first
        | rfl
        | exact Or.inl rfl
        | exact Or.inr ⟨key, rfl⟩
        | (cases k <;> first | rfl | exact absurd rfl hk)

theorem find_pushBack_ne_nil (pm : PropMap) (key key' : PropKey) (h : Handle) (g : PropGroup)
    (hinv : ∀ g', pm.find key' = some g' → g' ≠ [])
    (hf : (pm.pushBack key h).find key' = some g) : g ≠ [] := by
  by_cases hk : key = key'
  · subst hk
    rw [PropMap.pushBack, PropMap.find_modify_self] at hf
    simp only [Option.some.injEq] at hf
    rw [← hf]
    simp
  · rw [PropMap.pushBack, PropMap.find_modify_of_ne pm _ hk] at hf
    exact hinv g hf

theorem traverse_groups_nonempty (evs : List Event) (m m' : CustomPropertyManager)
    (hinv : ∀ (k : PropKind) (key : PropKey) (g : PropGroup),
      (k.propMap m).find key = some g → g ≠ [])
    (ht : PropertyInterceptor.traverse m evs = some m') :
    ∀ (k : PropKind) (key : PropKey) (g : PropGroup),
      (k.propMap m').find key = some g → g ≠ [] := by
  induction evs generalizing m with
  | nil =>
    simp only [PropertyInterceptor.traverse, Option.some.injEq] at ht
    subst ht
    exact hinv
  | cons e es ih =>
    simp only [PropertyInterceptor.traverse] at ht
    cases hd : PropertyInterceptor.dispatch m e with
    | none => simp [hd] at ht
    | some m₁ =>
      rw [hd, Option.some_bind] at ht
      refine ih m₁ ?_ ht
      intro k key g hf
      cases hp : e.property? with
      | none =>
        obtain ⟨m₁', hd', _, _, hmaps⟩ := PropertyInterceptor.dispatch_of_node hp m
        rw [hd, Option.some.injEq] at hd'
        subst hd'
        rw [hmaps k] at hf
        exact hinv k key g hf
      | some t =>
        obtain ⟨k', name, c⟩ := t
        rw [PropertyInterceptor.dispatch_of_property hp m] at hd
        obtain ⟨hother, hself⟩ := deliver_maps k' m m₁ name c hd
        by_cases hkk : k = k'
        · subst hkk
          rcases hself with hsame | ⟨key₀, hpush⟩
          · rw [hsame] at hf
            exact hinv k key g hf
          · rw [hpush] at hf
            exact find_pushBack_ne_nil _ key₀ key _ g (fun g' hg' => hinv k key g' hg') hf
        · rw [hother k hkk] at hf
          exact hinv k key g hf

theorem get_of_find_none {V : Type} [Inhabited V] (key : PropKey) (container : PropMap)
    (s : HandleStore V) (h : container.find key = none) :
    get key container s = some (default, s) := by
  simp [get, h]

theorem get_of_find_cons {V : Type} [Inhabited V] (key : PropKey) (container : PropMap)
    (s : HandleStore V) (front : Handle) (rest : PropGroup)
    (h : container.find key = some (front :: rest)) :
    get key container s = some (s.get front) := by
  simp [get, h]

/-- C6: in any manager reached from a new one by observer callbacks, the getter of each kind
returns the default value of the kind and the scene as it was when the key is absent; when the
key is present its list has a first handle, and the getter returns the value of that handle
alone, whatever the later handles hold.  The one `get()` on the first handle is the only call
made: no value of any handle changes, and the getter has no access to change the manager. -/
theorem getValue_first_handle (mode : Mode) (prefixp : Option Str) (evs : List Event)
    (m : CustomPropertyManager)
    (hreach : PropertyInterceptor.traverse (new mode prefixp) evs = some m) (sc : Scene)
    (key : PropKey) :
    ((m.fColorMap.find key = none → m.getColor key sc = some (default, sc)) ∧
        ∀ group, m.fColorMap.find key = some group → ∃ front rest, group = front :: rest ∧
          m.getColor key sc = some (sc.color.value front,
            { sc with color :=
              { sc.color with calls := sc.color.calls ++ [HandleCall.get front] } })) ∧
      ((m.fOpacityMap.find key = none → m.getOpacity key sc = some (default, sc)) ∧
        ∀ group, m.fOpacityMap.find key = some group → ∃ front rest, group = front :: rest ∧
          m.getOpacity key sc = some (sc.opacity.value front,
            { sc with opacity :=
              { sc.opacity with calls := sc.opacity.calls ++ [HandleCall.get front] } })) ∧
      ((m.fTransformMap.find key = none → m.getTransform key sc = some (default, sc)) ∧
        ∀ group, m.fTransformMap.find key = some group → ∃ front rest, group = front :: rest ∧
          m.getTransform key sc = some (sc.transform.value front,
            { sc with transform :=
              { sc.transform with calls := sc.transform.calls ++ [HandleCall.get front] } })) ∧
      ((m.fTextMap.find key = none → m.getText key sc = some (default, sc)) ∧
        ∀ group, m.fTextMap.find key = some group → ∃ front rest, group = front :: rest ∧
          m.getText key sc = some (sc.text.value front,
            { sc with text :=
              { sc.text with calls := sc.text.calls ++ [HandleCall.get front] } })) := by
  have hinv := traverse_groups_nonempty evs (new mode prefixp) m
    (fun k key g hf => by cases k <;> simp [PropKind.propMap, new, PropMap.find] at hf) hreach
  have hsplit : ∀ (k : PropKind) (group : PropGroup), (k.propMap m).find key = some group →
      ∃ front rest, group = front :: rest := by
    intro k group hf
    cases group with
    | nil => exact absurd rfl (hinv k key [] hf)
    | cons front rest => exact ⟨front, rest, rfl⟩
  refine ⟨⟨fun hf => ?_, fun group hf => ?_⟩, ⟨fun hf => ?_, fun group hf => ?_⟩,
    ⟨fun hf => ?_, fun group hf => ?_⟩, ⟨fun hf => ?_, fun group hf => ?_⟩⟩
  · simp [getColor, get_of_find_none key _ _ hf]
  · obtain ⟨front, rest, rfl⟩ := hsplit PropKind.color group hf
    exact ⟨front, rest, rfl, by simp [getColor, get_of_find_cons key _ _ front rest hf,
      HandleStore.get]⟩
  · simp [getOpacity, get_of_find_none key _ _ hf]
  · obtain ⟨front, rest, rfl⟩ := hsplit PropKind.opacity group hf
    exact ⟨front, rest, rfl, by simp [getOpacity, get_of_find_cons key _ _ front rest hf,
      HandleStore.get]⟩
  · simp [getTransform, get_of_find_none key _ _ hf]
  · obtain ⟨front, rest, rfl⟩ := hsplit PropKind.transform group hf
    exact ⟨front, rest, rfl, by simp [getTransform, get_of_find_cons key _ _ front rest hf,
      HandleStore.get]⟩
  · simp [getText, get_of_find_none key _ _ hf]
  · obtain ⟨front, rest, rfl⟩ := hsplit PropKind.text group hf
    exact ⟨front, rest, rfl, by simp [getText, get_of_find_cons key _ _ front rest hf,
      HandleStore.get]⟩

/-- C6 at a concrete input: after `fillPass` the key `$fill1` holds the handles 1 and 2,
which hold different colours in `sampleScene`; `getColor` returns the colour of handle 1, and
the default colour for the unknown key `$fill2`. -/
theorem getValue_first_handle_witness :
    sampleScene.color.value 1 = 8 ∧ sampleScene.color.value 2 = 9 ∧
      (fillManager.getColor "$fill1".toList sampleScene).map Prod.fst = some 8 ∧
      (fillManager.getColor "$fill2".toList sampleScene).map Prod.fst = some 0 :=
  have h := getValue_first_handle Mode.kCollapseProperties none fillPass fillManager
    (by decide) sampleScene
  ⟨rfl, rfl,
    by
      obtain ⟨front, rest, hgroup, hget⟩ := (h "$fill1".toList).1.2 [1, 2] (by decide)
      rw [hget]
      simp only [List.cons.injEq] at hgroup
      simp [← hgroup.1, sampleScene],
    by
      rw [(h "$fill2".toList).1.1 (by decide)]
      rfl⟩

end CustomPropertyManager

/-! ## Slots -/

namespace PropMap

theorem find_assign_self (m : PropMap) (key : PropKey) (g : PropGroup) :
    (m.assign key g).find key = some g := by
  simp [assign, find_modify_self]

theorem find_assign_of_ne (m : PropMap) {key other : PropKey} (g : PropGroup)
    (h : key ≠ other) : (m.assign key g).find other = m.find other := by
  simp [assign, find_modify_of_ne m _ h]

theorem find_assign (m : PropMap) (key other : PropKey) (g : PropGroup) :
    (m.assign key g).find other = if key = other then some g else m.find other := by
  by_cases h : key = other
  · subst h
    simp [find_assign_self]
  · simp [h, find_assign_of_ne m g h]

end PropMap

namespace SlottablePropertyObserver

theorem addSlot_find (o : SlottablePropertyObserver) (s : SlotInfo) (id : Str) :
    ((o.addSlot s).fColorMap.find id =
        if s.slotID = id ∧ s.type = SlotType.kColor then some [] else o.fColorMap.find id) ∧
      ((o.addSlot s).fOpacityMap.find id =
        if s.slotID = id ∧ s.type = SlotType.kOpacity then some []
        else o.fOpacityMap.find id) ∧
      ((o.addSlot s).fTextMap.find id =
        if s.slotID = id ∧ s.type = SlotType.kText then some [] else o.fTextMap.find id) ∧
      (o.addSlot s).fProxy = o.fProxy := by
  have h01 : SlotType.kColor ≠ SlotType.kOpacity := by decide
  have h02 : SlotType.kColor ≠ SlotType.kText := by decide
  have h12 : SlotType.kOpacity ≠ SlotType.kText := by decide
  unfold addSlot
  by_cases hc : s.type = SlotType.kColor
  · have ho : s.type ≠ SlotType.kOpacity := hc ▸ h01
    have ht : s.type ≠ SlotType.kText := hc ▸ h02
    simp [hc, h01, h02, PropMap.find_assign]
  · by_cases ho : s.type = SlotType.kOpacity
    · have ht : s.type ≠ SlotType.kText := ho ▸ h12
      simp [hc, ho, h01.symm, h12, PropMap.find_assign]
    · by_cases ht : s.type = SlotType.kText
      · simp [hc, ho, ht, h02.symm, h12.symm, PropMap.find_assign]
      · simp [hc, ho, ht]

theorem declared_cons (s : SlotInfo) (rest : List SlotInfo) (type : Int) (id : Str) :
    declared (s :: rest) type id =
      (decide (s.slotID = id ∧ s.type = type) || declared rest type id) := by
  simp [declared]

theorem foldl_addSlot (slotInfos : List SlotInfo) (o₀ : SlottablePropertyObserver) (id : Str) :
    ((slotInfos.foldl addSlot o₀).fColorMap.find id =
        if declared slotInfos SlotType.kColor id = true then some []
        else o₀.fColorMap.find id) ∧
      ((slotInfos.foldl addSlot o₀).fOpacityMap.find id =
        if declared slotInfos SlotType.kOpacity id = true then some []
        else o₀.fOpacityMap.find id) ∧
      ((slotInfos.foldl addSlot o₀).fTextMap.find id =
        if declared slotInfos SlotType.kText id = true then some []
        else o₀.fTextMap.find id) ∧
      (slotInfos.foldl addSlot o₀).fProxy = o₀.fProxy := by
  induction slotInfos generalizing o₀ with
  | nil => simp [declared]
  | cons s rest ih =>
    obtain ⟨hc, ho, ht, hp⟩ := ih (o₀.addSlot s)
    obtain ⟨hc₁, ho₁, ht₁, hp₁⟩ := addSlot_find o₀ s id
    simp only [List.foldl_cons, declared_cons, Bool.or_eq_true, decide_eq_true_eq]
    refine ⟨?_, ?_, ?_, hp.trans hp₁⟩
    · rw [hc, hc₁]
      by_cases h1 : declared rest SlotType.kColor id = true <;>
        by_cases h2 : s.slotID = id ∧ s.type = SlotType.kColor <;> simp [h1, h2]
    · rw [ho, ho₁]
      by_cases h1 : declared rest SlotType.kOpacity id = true <;>
        by_cases h2 : s.slotID = id ∧ s.type = SlotType.kOpacity <;> simp [h1, h2]
    · rw [ht, ht₁]
      by_cases h1 : declared rest SlotType.kText id = true <;>
        by_cases h2 : s.slotID = id ∧ s.type = SlotType.kText <;> simp [h1, h2]

theorem find_new (slotInfos : List SlotInfo) (proxy : Option ProxyObserver) (id : Str) :
    ((new slotInfos proxy).fColorMap.find id =
        if declared slotInfos SlotType.kColor id = true then some [] else none) ∧
      ((new slotInfos proxy).fOpacityMap.find id =
        if declared slotInfos SlotType.kOpacity id = true then some [] else none) ∧
      ((new slotInfos proxy).fTextMap.find id =
        if declared slotInfos SlotType.kText id = true then some [] else none) := by
  obtain ⟨hc, ho, ht, _⟩ := foldl_addSlot slotInfos
    { fColorMap := [], fOpacityMap := [], fTextMap := [], fProxy := proxy } id
  exact ⟨hc, ho, ht⟩

end SlottablePropertyObserver

namespace SlotManager

theorem find_pushBack_isSome (pm : PropMap) (name id : PropKey) (h : Handle)
    (hname : (pm.find name).isSome = true) :
    ((pm.pushBack name h).find id).isSome = (pm.find id).isSome := by
  by_cases hk : name = id
  · subst hk
    rw [PropMap.pushBack, PropMap.find_modify_self, hname]
    rfl
  · rw [PropMap.pushBack, PropMap.find_modify_of_ne pm _ hk]

theorem forward_maps (o : SlottablePropertyObserver) (e : Event) :
    (o.forward e).fColorMap = o.fColorMap ∧ (o.forward e).fOpacityMap = o.fOpacityMap ∧
      (o.forward e).fTextMap = o.fTextMap := by
  unfold SlottablePropertyObserver.forward
  split <;> exact ⟨rfl, rfl, rfl⟩

theorem dispatch_find_isSome (o o' : SlottablePropertyObserver) (e : Event)
    (h : o.dispatch e = some o') (id : Str) :
    (o'.fColorMap.find id).isSome = (o.fColorMap.find id).isSome ∧
      (o'.fOpacityMap.find id).isSome = (o.fOpacityMap.find id).isSome ∧
      (o'.fTextMap.find id).isSome = (o.fTextMap.find id).isSome := by
  cases e with
  | onColorProperty n c =>
    simp only [SlottablePropertyObserver.dispatch, Option.some.injEq] at h
    subst h
    simp only [SlottablePropertyObserver.onColorProperty]
    obtain ⟨h1, h2, h3⟩ := forward_maps
      (match n with
        | some name =>
          match o.fColorMap.find name with
          | some _ => { o with fColorMap := o.fColorMap.pushBack name (c ()) }
          | none => o
        | none => o) (Event.onColorProperty n c)
    rw [h1, h2, h3]
    cases n with
    | none => exact ⟨rfl, rfl, rfl⟩
    | some name =>
      dsimp only
      cases hf : o.fColorMap.find name with
      | none => exact ⟨rfl, rfl, rfl⟩
      | some g => exact ⟨find_pushBack_isSome _ name id _ (by rw [hf]; rfl), rfl, rfl⟩
  | onOpacityProperty n c =>
    simp only [SlottablePropertyObserver.dispatch, Option.some.injEq] at h
    subst h
    simp only [SlottablePropertyObserver.onOpacityProperty]
    obtain ⟨h1, h2, h3⟩ := forward_maps
      (match n with
        | some name =>
          match o.fOpacityMap.find name with
          | some _ => { o with fOpacityMap := o.fOpacityMap.pushBack name (c ()) }
          | none => o
        | none => o) (Event.onOpacityProperty n c)
    rw [h1, h2, h3]
    cases n with
    | none => exact ⟨rfl, rfl, rfl⟩
    | some name =>
      dsimp only
      cases hf : o.fOpacityMap.find name with
      | none => exact ⟨rfl, rfl, rfl⟩
      | some g => exact ⟨rfl, find_pushBack_isSome _ name id _ (by rw [hf]; rfl), rfl⟩
  | onTextProperty n c =>
    cases n with
    | none => simp [SlottablePropertyObserver.dispatch,
        SlottablePropertyObserver.onTextProperty] at h
    | some name =>
      simp only [SlottablePropertyObserver.dispatch, SlottablePropertyObserver.onTextProperty,
        Option.some.injEq] at h
      subst h
      obtain ⟨h1, h2, h3⟩ := forward_maps
        (match o.fTextMap.find name with
          | some _ => { o with fTextMap := o.fTextMap.pushBack name (c ()) }
          | none => o) (Event.onTextProperty (some name) c)
      rw [h1, h2, h3]
      cases hf : o.fTextMap.find name with
      | none => exact ⟨rfl, rfl, rfl⟩
      | some g => exact ⟨rfl, rfl, find_pushBack_isSome _ name id _ (by rw [hf]; rfl)⟩
  | onTransformProperty n c =>
    simp only [SlottablePropertyObserver.dispatch, Option.some.injEq] at h
    subst h
    obtain ⟨h1, h2, h3⟩ := forward_maps o (Event.onTransformProperty n c)
    simp only [SlottablePropertyObserver.onTransformProperty, h1, h2, h3, and_self]
  | onEnterNode n ty =>
    simp only [SlottablePropertyObserver.dispatch, Option.some.injEq] at h
    subst h
    obtain ⟨h1, h2, h3⟩ := forward_maps o (Event.onEnterNode n ty)
    simp only [SlottablePropertyObserver.onEnterNode, h1, h2, h3, and_self]
  | onLeavingNode n ty =>
    simp only [SlottablePropertyObserver.dispatch, Option.some.injEq] at h
    subst h
    obtain ⟨h1, h2, h3⟩ := forward_maps o (Event.onLeavingNode n ty)
    simp only [SlottablePropertyObserver.onLeavingNode, h1, h2, h3, and_self]

theorem traverse_find_isSome (evs : List Event) (o o' : SlottablePropertyObserver)
    (h : o.traverse evs = some o') (id : Str) :
    (o'.fColorMap.find id).isSome = (o.fColorMap.find id).isSome ∧
      (o'.fOpacityMap.find id).isSome = (o.fOpacityMap.find id).isSome ∧
      (o'.fTextMap.find id).isSome = (o.fTextMap.find id).isSome := by
  induction evs generalizing o with
  | nil =>
    simp only [SlottablePropertyObserver.traverse, Option.some.injEq] at h
    subst h
    exact ⟨rfl, rfl, rfl⟩
  | cons e es ih =>
    simp only [SlottablePropertyObserver.traverse] at h
    cases hd : o.dispatch e with
    | none => simp [hd] at h
    | some o₁ =>
      rw [hd, Option.some_bind] at h
      obtain ⟨a1, a2, a3⟩ := ih o₁ h
      obtain ⟨b1, b2, b3⟩ := dispatch_find_isSome o o₁ e hd id
      exact ⟨a1.trans b1, a2.trans b2, a3.trans b3⟩


/-- C10: take a slot manager whose observer was built from the manifest entries `slotInfos`
and has since received any events.  When no entry declares `slotID` with the Color tag
(whether it is declared with another tag or not at all), `setColorSlot` returns the manager
and the scene as they were: no handle of any kind has had `get()` or `set()` called, no map
has gained or lost a key, and there is no failure outcome.  The same holds for
`setOpacitySlot` with the Opacity tag and `setTextStringSlot` with the Text tag. -/
theorem setSlot_undeclared_noop (slotInfos : List SlotInfo) (poProxy : Option ProxyObserver)
    (evs : List Event) (sm : SlotManager)
    (hreach : (SlottablePropertyObserver.new slotInfos poProxy).traverse evs =
      some sm.fPropertyObserver)
    (slotID : Str) (sc : Scene) :
    (declared slotInfos SlotType.kColor slotID = false → ∀ color : ColorPropertyValue,
        sm.setColorSlot slotID color sc = (sm, sc)) ∧
      (declared slotInfos SlotType.kOpacity slotID = false →
        ∀ opacity : OpacityPropertyValue, sm.setOpacitySlot slotID opacity sc = (sm, sc)) ∧
      (declared slotInfos SlotType.kText slotID = false → ∀ text : Str,
        sm.setTextStringSlot slotID text sc = (sm, sc)) := by
  obtain ⟨hc, ho, ht⟩ := SlottablePropertyObserver.find_new slotInfos poProxy slotID
  obtain ⟨hc', ho', ht'⟩ := traverse_find_isSome evs _ _ hreach slotID
  refine ⟨fun hd color => ?_, fun hd opacity => ?_, fun hd text => ?_⟩
  · rw [hc, hd] at hc'
    have hnone : sm.fPropertyObserver.fColorMap.find slotID = none := by
      simpa using hc'
    simp [setColorSlot, hnone]
  · rw [ho, hd] at ho'
    have hnone : sm.fPropertyObserver.fOpacityMap.find slotID = none := by
      simpa using ho'
    simp [setOpacitySlot, hnone]
  · rw [ht, hd] at ht'
    have hnone : sm.fPropertyObserver.fTextMap.find slotID = none := by
      simpa using ht'
    simp [setTextStringSlot, hnone]

/-- C10 at a concrete input: after `slotPass` over `sampleSlots`, `s1` is a colour slot and
not an opacity slot, `s2` is a text slot and not a colour slot, and `zz` is no slot. -/
theorem setSlot_undeclared_noop_witness :
    sampleSlotManager.setOpacitySlot "s1".toList 50 sampleScene =
        (sampleSlotManager, sampleScene) ∧
      sampleSlotManager.setColorSlot "s2".toList SK_ColorRED sampleScene =
        (sampleSlotManager, sampleScene) ∧
      sampleSlotManager.setTextStringSlot "zz".toList "hello".toList sampleScene =
        (sampleSlotManager, sampleScene) :=
  ⟨(setSlot_undeclared_noop sampleSlots none slotPass sampleSlotManager rfl "s1".toList
      sampleScene).2.1 (by decide) 50,
    (setSlot_undeclared_noop sampleSlots none slotPass sampleSlotManager rfl "s2".toList
      sampleScene).1 (by decide) SK_ColorRED,
    (setSlot_undeclared_noop sampleSlots none slotPass sampleSlotManager rfl "zz".toList
      sampleScene).2.2 (by decide) "hello".toList⟩


/-! ## Text slots -/

theorem textLoop_spec (text : Str) (group : List Handle) (store : HandleStore TextPropertyValue) :
    (∀ h, (group.foldl
          (fun store handle =>
            let (tVal, store1) := store.get handle
            store1.set handle { tVal with fText := text })
          store).value h =
        if h ∈ group then { store.value h with fText := text } else store.value h) ∧
      (group.foldl
          (fun store handle =>
            let (tVal, store1) := store.get handle
            store1.set handle { tVal with fText := text })
          store).calls =
        store.calls ++ group.flatMap fun h =>
          [HandleCall.get h, HandleCall.set h { store.value h with fText := text }] := by
  induction group generalizing store with
  | nil => simp
  | cons g gs ih =>
    have hstep : ∀ h, ((store.get g).2.set g { (store.get g).1 with fText := text }).value h =
        if h = g then { store.value g with fText := text } else store.value h := by
      intro h
      simp [HandleStore.get, HandleStore.set]
    have hcalls : ((store.get g).2.set g { (store.get g).1 with fText := text }).calls =
        store.calls ++
          [HandleCall.get g, HandleCall.set g { store.value g with fText := text }] := by
      simp [HandleStore.get, HandleStore.set]
    obtain ⟨ihv, ihc⟩ := ih ((store.get g).2.set g { (store.get g).1 with fText := text })
    have hsame : ∀ h,
        ({ ((store.get g).2.set g { (store.get g).1 with fText := text }).value h with
            fText := text } : TextPropertyValue) = { store.value h with fText := text } := by
      intro h
      rw [hstep h]
      by_cases hg : h = g
      · simp [hg]
      · simp [hg]
    constructor
    · intro h
      show (gs.foldl _ ((store.get g).2.set g { (store.get g).1 with fText := text })).value h
        = _
      rw [ihv h, hsame h, hstep h]
      by_cases hg : h = g
      · subst hg
        by_cases hin : h ∈ gs <;> simp [hin]
      · by_cases hin : h ∈ gs <;> simp [hin, hg]
    · show (gs.foldl _ ((store.get g).2.set g { (store.get g).1 with fText := text })).calls
        = _
      rw [ihc, hcalls]
      simp only [List.flatMap_cons, hsame, List.append_assoc]

/-- C11: when the text slot `slotID` holds the handles `group`, `setTextStringSlot` leaves the
manager and the colour, opacity and transform handles as they were; afterwards every handle
of `group` has the string field `text` and every other field as that same handle had it
before the call, and every text handle outside `group` keeps its value. -/
theorem setTextStringSlot_keeps_style (sm : SlotManager) (slotID text : Str) (sc : Scene)
    (group : PropGroup) (hfind : sm.fPropertyObserver.fTextMap.find slotID = some group) :
    (sm.setTextStringSlot slotID text sc).1 = sm ∧
      (sm.setTextStringSlot slotID text sc).2.color = sc.color ∧
      (sm.setTextStringSlot slotID text sc).2.opacity = sc.opacity ∧
      (sm.setTextStringSlot slotID text sc).2.transform = sc.transform ∧
      (∀ h ∈ group,
        (((sm.setTextStringSlot slotID text sc).2.text.get h).1).fText = text ∧
          (((sm.setTextStringSlot slotID text sc).2.text.get h).1).fStyle =
            (sc.text.value h).fStyle) ∧
      ∀ h, h ∉ group →
        ((sm.setTextStringSlot slotID text sc).2.text.get h).1 = sc.text.value h := by
  obtain ⟨hv, _⟩ := textLoop_spec text group sc.text
  have heq : sm.setTextStringSlot slotID text sc =
      (sm,
        { sc with
          text :=
            group.foldl
              (fun store handle =>
                let (tVal, store1) := store.get handle
                store1.set handle { tVal with fText := text })
              sc.text }) := by
    simp only [setTextStringSlot, hfind]
  rw [heq]
  refine ⟨rfl, rfl, rfl, rfl, fun h hh => ?_, fun h hh => ?_⟩
  · show ((group.foldl _ sc.text).value h).fText = text ∧
      ((group.foldl _ sc.text).value h).fStyle = (sc.text.value h).fStyle
    rw [hv h]
    simp [hh]
  · show (group.foldl _ sc.text).value h = sc.text.value h
    rw [hv h]
    simp [hh]

/-- C11 at a concrete input: the text slot `s2` holds the handles 2 and 5, whose styles in
`sampleScene` are 2 and 5. -/
theorem setTextStringSlot_keeps_style_witness :
    sampleScene.text.value 5 = ⟨"t".toList, 5⟩ ∧
      (((twoTextManager.setTextStringSlot "s2".toList "hi".toList sampleScene).2.text.get
          5).1).fText = "hi".toList ∧
      (((twoTextManager.setTextStringSlot "s2".toList "hi".toList sampleScene).2.text.get
          5).1).fStyle = (sampleScene.text.value 5).fStyle :=
  ⟨rfl,
    (setTextStringSlot_keeps_style twoTextManager "s2".toList "hi".toList sampleScene
      [2, 5] (by decide)).2.2.2.2.1 5 (by decide)⟩

/-- C12 (amended): when the text slot `slotID` holds the handles `group`,
`setTextStringSlot` makes exactly these calls on text handles, in order: for each handle of
`group` in turn a `get()` on that handle, then a `set()` on the same handle of the value it
held before the call with only the string field replaced by `text`.  So afterwards every
handle of the slot holds its own prior value with the string `text`. -/
theorem setTextStringSlot_reads_each_handle (sm : SlotManager) (slotID text : Str)
    (sc : Scene) (group : PropGroup)
    (hfind : sm.fPropertyObserver.fTextMap.find slotID = some group) :
    (sm.setTextStringSlot slotID text sc).2.text.calls =
        sc.text.calls ++ group.flatMap (fun h =>
          [HandleCall.get h, HandleCall.set h { sc.text.value h with fText := text }]) ∧
      ∀ h ∈ group, (sm.setTextStringSlot slotID text sc).2.text.value h =
        { sc.text.value h with fText := text } := by
  obtain ⟨hv, hc⟩ := textLoop_spec text group sc.text
  have heq : sm.setTextStringSlot slotID text sc =
      (sm,
        { sc with
          text :=
            group.foldl
              (fun store handle =>
                let (tVal, store1) := store.get handle
                store1.set handle { tVal with fText := text })
              sc.text }) := by
    simp only [setTextStringSlot, hfind]
  rw [heq]
  refine ⟨hc, fun h hh => ?_⟩
  show (group.foldl _ sc.text).value h = _
  rw [hv h]
  simp [hh]

/-- C12 (amended) at a concrete input: the text slot `s2` with the handles 2 and 5. -/
theorem setTextStringSlot_reads_each_handle_witness :
    (twoTextManager.setTextStringSlot "s2".toList "hi".toList sampleScene).2.text.calls =
      [HandleCall.get 2, HandleCall.set 2 ⟨"hi".toList, 2⟩, HandleCall.get 5,
        HandleCall.set 5 ⟨"hi".toList, 5⟩] :=
  (setTextStringSlot_reads_each_handle twoTextManager "s2".toList "hi".toList sampleScene
    [2, 5] (by decide)).1

/-- C12 as stated fails when the handles of a slot hold different styles: the slot `s2` holds
the handles 2 and 5 with the styles 2 and 5; after `setTextStringSlot` handle 5 holds its own
style with the new string, not the prior value of the first handle with the new string. -/
theorem setTextStringSlot_not_first_handle_value :
    twoTextManager.fPropertyObserver.fTextMap.find "s2".toList = some [2, 5] ∧
      sampleScene.text.value 2 = ⟨"t".toList, 2⟩ ∧
      (twoTextManager.setTextStringSlot "s2".toList "hi".toList sampleScene).2.text.value 5 =
        ⟨"hi".toList, 5⟩ ∧
      (twoTextManager.setTextStringSlot "s2".toList "hi".toList sampleScene).2.text.value 5 ≠
        { sampleScene.text.value 2 with fText := "hi".toList } := by
  refine ⟨by decide, by decide, by decide, by decide⟩

end SlotManager

/-! ## Nested animations -/

namespace ExternalAnimationPrecompInterceptor

theorem strncmp_eq_zero_iff (p name : Str) : strncmp name p p.length = 0 ↔ p <+: name := by
  induction p generalizing name with
  | nil => simp [strncmp]
  | cons b t ih =>
    cases name with
    | nil => simp [strncmp]
    | cons a s =>
      by_cases hab : a = b
      · subst hab
        simp [strncmp, ih s, List.cons_prefix_cons]
      · have hne : (if a < b then (-1 : Int) else 1) ≠ 0 := by split <;> decide
        have hba : ¬ b = a := fun h => hab h.symm
        simp [strncmp, hab, hba, hne, List.cons_prefix_cons]

/-- C13: for every interceptor (any prefix, any resource provider, also none) and every
precomp name that does not start with the prefix, `onLoadPrecomp` returns null and makes no
`load` request.  For a name `fPrefix ++ rest`, with a provider configured, it makes exactly
one request, `load("", rest)`, and when that load fails it returns null. -/
theorem onLoadPrecomp_prefix_filter (self : ExternalAnimationPrecompInterceptor)
    (make : List Nat → Option Animation) (id : Option Str) (name : Str) (size : SkSize) :
    (¬ self.fPrefix <+: name → self.onLoadPrecomp make id (some name) size = some (none, [])) ∧
      ∀ (rest : Str) (rp : ResourceProvider), name = self.fPrefix ++ rest →
        self.fResourceProvider = some rp →
        ∃ layer, self.onLoadPrecomp make id (some name) size = some (layer, [([], rest)]) ∧
          (rp.load [] rest = none → layer = none) := by
  constructor
  · intro hnot
    have hcmp : strncmp name self.fPrefix self.fPrefix.length ≠ 0 := fun h =>
      hnot ((strncmp_eq_zero_iff _ _).mp h)
    simp [onLoadPrecomp, Ne.symm hcmp]
  · intro rest rp hname hrp
    have hcmp : strncmp name self.fPrefix self.fPrefix.length = 0 :=
      (strncmp_eq_zero_iff _ _).mpr ⟨rest, hname.symm⟩
    have hdrop : name.drop self.fPrefix.length = rest := by
      rw [hname]
      simp
    simp only [onLoadPrecomp, hcmp, hrp, hdrop, ne_eq, not_true_eq_false, if_false]
    cases hload : rp.load [] rest with
    | none => exact ⟨none, rfl, fun _ => rfl⟩
    | some data =>
      dsimp only
      cases hmake : make data with
      | none => exact ⟨none, rfl, fun _ => rfl⟩
      | some anim => exact ⟨_, rfl, fun h => by simp at h⟩

/-- C13 at a concrete input: with the prefix `$` and a provider holding `child.json`, the
name `comp_0` is declined without a request, `$child.json` is loaded as `child.json`, and
`$missing` is asked for as `missing` and declined. -/
theorem onLoadPrecomp_prefix_filter_witness :
    (new (some oneFileProvider) "$".toList).onLoadPrecomp anyAnimation none
        (some "comp_0".toList) (100, 50) = some (none, []) ∧
      (new (some oneFileProvider) "$".toList).onLoadPrecomp anyAnimation none
        (some "$child.json".toList) (100, 50) =
        some (some ⟨4, (100, 50)⟩, [([], "child.json".toList)]) ∧
      (new (some oneFileProvider) "$".toList).onLoadPrecomp anyAnimation none
        (some "$missing".toList) (100, 50) = some (none, [([], "missing".toList)]) :=
  ⟨(onLoadPrecomp_prefix_filter (new (some oneFileProvider) "$".toList) anyAnimation none
      "comp_0".toList (100, 50)).1 (by decide),
    by decide, by decide⟩

end ExternalAnimationPrecompInterceptor

/-! ## Reading the manifest -/

namespace SlotManager

/-- C14: the manifest `{"slots": {"s1": 5}}` makes `parseSlotIDsFromFileName` read through the
null `jslot` of the member `s1`, so neither the reader nor the `SlotManager` constructor
completes.  The other inputs of the claim are handled: a missing file, a root that is not an
object (the root of a document that is not valid JSON included) and a root without a `slots`
object leave `fSlotInfos` as it was, and a member that is an object without an integer `t` is
recorded with the type `-1`. -/
theorem parseSlotIDs_faults_on_non_object_member :
    parseSlotIDsFromFileName numberMemberSource [] "slots.json".toList = none ∧
      (SlotManager.new numberMemberSource "slots.json".toList none none).isNone = true ∧
      (∀ (src : ManifestSource) (fSlotInfos : List SlotInfo) (path : Str),
        src.MakeFromFileName path = none →
          parseSlotIDsFromFileName src fSlotInfos path = some fSlotInfos) ∧
      (∀ (src : ManifestSource) (fSlotInfos : List SlotInfo) (path : Str) (data : List Nat),
        src.MakeFromFileName path = some data → (∀ json, src.DOM data ≠ Json.object json) →
          parseSlotIDsFromFileName src fSlotInfos path = some fSlotInfos) ∧
      (∀ (src : ManifestSource) (fSlotInfos : List SlotInfo) (path : Str) (data : List Nat)
          (json : List (Str × Json)),
        src.MakeFromFileName path = some data → src.DOM data = Json.object json →
          (∀ jslots, Json.member json "slots".toList ≠ Json.object jslots) →
          parseSlotIDsFromFileName src fSlotInfos path = some fSlotInfos) ∧
      ∀ (fSlotInfos : List SlotInfo) (slotID : Str) (jslot rest : List (Str × Json)),
        (∀ n, Json.member jslot "t".toList ≠ Json.number n) →
          parseMembers fSlotInfos ((slotID, Json.object jslot) :: rest) =
            parseMembers (fSlotInfos ++ [⟨slotID, -1⟩]) rest := by
  refine ⟨by decide, by decide, ?_, ?_, ?_, ?_⟩
  · intro src fSlotInfos path hfile
    simp [parseSlotIDsFromFileName, hfile]
  · intro src fSlotInfos path data hfile hroot
    simp only [parseSlotIDsFromFileName, hfile]
  · intro src fSlotInfos path data json hfile hdom hslots
    simp only [parseSlotIDsFromFileName, hfile, hdom]
  · intro fSlotInfos slotID jslot rest ht
    have hdefault : ParseDefault (Json.member jslot "t".toList) (-1) = -1 := by
      cases hm : Json.member jslot "t".toList with
      | number n => exact absurd hm (ht n)
      | _ => rfl
    simp only [parseMembers, hdefault]

end SlotManager

/-! ## Image slots -/

namespace SlottableResourceProvider

theorem findProxy_assignProxy (m : List (Str × ImageAssetProxy)) (key other : Str)
    (p : ImageAssetProxy) :
    findProxy (assignProxy m key p) other = if key = other then some p else findProxy m other := by
  induction m with
  | nil =>
    by_cases h : key = other <;> simp [assignProxy, findProxy, h]
  | cons kv rest ih =>
    obtain ⟨k, q⟩ := kv
    by_cases hk : k = key
    · subst hk
      by_cases h : k = other <;> simp [assignProxy, findProxy, h]
    · by_cases h : key = other
      · subst h
        simp only [assignProxy, hk, if_false, findProxy, ih, if_true]
      · by_cases ho : k = other
        · subst ho
          simp [assignProxy, findProxy, hk, h]
        · simp [assignProxy, findProxy, hk, h, ho, ih]

theorem findProxy_foldl_addSlot (slotInfos : List SlotInfo) (rp₀ : SlottableResourceProvider)
    (slot : Str) :
    findProxy (slotInfos.foldl addSlot rp₀).fImageAssetMap slot =
      if declared slotInfos SlotType.kImage slot = true then some ⟨none⟩
      else findProxy rp₀.fImageAssetMap slot := by
  induction slotInfos generalizing rp₀ with
  | nil => simp [declared]
  | cons s rest ih =>
    have hstep : findProxy (rp₀.addSlot s).fImageAssetMap slot =
        if s.slotID = slot ∧ s.type = SlotType.kImage then some ⟨none⟩
        else findProxy rp₀.fImageAssetMap slot := by
      unfold addSlot
      by_cases ht : s.type = SlotType.kImage
      · by_cases hs : s.slotID = slot <;> simp [ht, hs, findProxy_assignProxy]
      · simp [ht]
    simp only [List.foldl_cons, ih, hstep, declared, List.any_cons, Bool.or_eq_true,
      decide_eq_true_eq]
    by_cases h1 : (rest.any fun s => decide (s.slotID = slot ∧ s.type = SlotType.kImage)) = true
      <;> by_cases h2 : s.slotID = slot ∧ s.type = SlotType.kImage <;> simp [h1, h2]

/-- C15: a slot that the manifest entries declare with the Image tag has a proxy from
construction on.  Whenever the slot `slot` has a proxy, `loadImageAsset` for that slot
returns the proxy of that slot itself, the one `setImageSlot` assigns to; with a wrapped
provider the delegate of that proxy is first set to what the wrapped provider returns for
the same path, name and slot, and no other proxy changes; without one the provider, and so
the delegate, is left as it was. -/
theorem loadImageAsset_declared_slot (slotInfos : List SlotInfo)
    (rpProxy : Option ResourceProvider) (slot : Str)
    (hdecl : declared slotInfos SlotType.kImage slot = true) :
    findProxy (new slotInfos rpProxy).fImageAssetMap slot = some ⟨none⟩ ∧
      ∀ (rp : SlottableResourceProvider) (p : ImageAssetProxy) (path name : Option Str),
        findProxy rp.fImageAssetMap slot = some p →
        (∀ wrapped, rp.fProxy = some wrapped →
          ∃ rp', rp.loadImageAsset path name (some slot) = some (some slot, rp') ∧
            rp'.fProxy = rp.fProxy ∧
            findProxy rp'.fImageAssetMap slot =
              some ⟨wrapped.loadImageAsset path name (some slot)⟩ ∧
            ∀ other, other ≠ slot →
              findProxy rp'.fImageAssetMap other = findProxy rp.fImageAssetMap other) ∧
          (rp.fProxy = none → rp.loadImageAsset path name (some slot) = some (some slot, rp)) ∧
          ∀ (sm : SlotManager) (img : Option ImageAsset), sm.fResourceProvider = rp →
            findProxy (sm.setImageSlot slot img).fResourceProvider.fImageAssetMap slot =
              some ⟨img⟩ := by
  constructor
  · have h := findProxy_foldl_addSlot slotInfos { fProxy := rpProxy, fImageAssetMap := [] } slot
    rw [hdecl] at h
    simpa [new] using h
  · intro rp p path name hfind
    refine ⟨fun wrapped hw => ?_, fun hnone => ?_, fun sm img hsm => ?_⟩
    · refine ⟨{ rp with
          fImageAssetMap :=
            assignProxy rp.fImageAssetMap slot
              (p.setImageAsset (wrapped.loadImageAsset path name (some slot))) },
        by simp only [loadImageAsset, hw, hfind], rfl, ?_, fun other ho => ?_⟩
      · simp [findProxy_assignProxy, ImageAssetProxy.setImageAsset]
      · have ho' : ¬ slot = other := fun h => ho h.symm
        simp [findProxy_assignProxy, ho']
    · simp [loadImageAsset, hnone, hfind]
    · subst hsm
      simp [SlotManager.setImageSlot, hfind, findProxy_assignProxy,
        ImageAssetProxy.setImageAsset]

/-- C15 at a concrete input: `sampleSlots` declares the image slot `s3`; with a wrapped
provider that answers 9, a request for `s3` returns the proxy of `s3`, whose delegate is then
9. -/
theorem loadImageAsset_declared_slot_witness :
    findProxy (new sampleSlots (some imageProvider)).fImageAssetMap "s3".toList = some ⟨none⟩ ∧
      ((new sampleSlots (some imageProvider)).loadImageAsset none (some "img.png".toList)
          (some "s3".toList)).map (fun r => (r.1, findProxy r.2.fImageAssetMap "s3".toList)) =
        some (some "s3".toList, some ⟨some 9⟩) :=
  ⟨(loadImageAsset_declared_slot sampleSlots (some imageProvider) "s3".toList (by decide)).1,
    by decide⟩

/-- C16: with a wrapped provider configured, `loadImageAsset` for a slot that has no proxy
calls `setImageAsset` on the null proxy it looked up, so the call does not complete; this is
so for the undeclared slot `logo` of `sampleSlots`.  Without a wrapped provider the same
request returns null and leaves the provider as it was. -/
theorem loadImageAsset_faults_on_unknown_slot :
    ((new sampleSlots (some imageProvider)).loadImageAsset none (some "img.png".toList)
        (some "logo".toList)).isNone = true ∧
      (∀ (rp : SlottableResourceProvider) (wrapped : ResourceProvider)
          (path name : Option Str) (slot : Str),
        rp.fProxy = some wrapped → findProxy rp.fImageAssetMap slot = none →
          rp.loadImageAsset path name (some slot) = none) ∧
      ∀ (rp : SlottableResourceProvider) (path name : Option Str) (slot : Str),
        rp.fProxy = none → findProxy rp.fImageAssetMap slot = none →
          rp.loadImageAsset path name (some slot) = some (none, rp) := by
  refine ⟨by decide, ?_, ?_⟩
  · intro rp wrapped path name slot hw hfind
    simp [loadImageAsset, hw, hfind]
  · intro rp path name slot hnone hfind
    simp [loadImageAsset, hnone, hfind]

end SlottableResourceProvider

/-! ## Forwarding to the wrapped observer -/

namespace SlottablePropertyObserver

theorem forward_proxy (o : SlottablePropertyObserver) (e : Event) :
    (o.forward e).fProxy = o.fProxy.map (· ++ [e]) := by
  unfold forward
  cases h : o.fProxy <;> simp [h]

theorem dispatch_proxy (o : SlottablePropertyObserver) (e : Event)
    (hsafe : e.textNamed = true) :
    ∃ o', o.dispatch e = some o' ∧ o'.fProxy = o.fProxy.map (· ++ [e]) := by
  cases e with
  | onColorProperty n c =>
    refine ⟨_, rfl, ?_⟩
    simp only [onColorProperty, forward_proxy]
    cases n with
    | none => rfl
    | some name =>
      dsimp only
      cases o.fColorMap.find name <;> rfl
  | onOpacityProperty n c =>
    refine ⟨_, rfl, ?_⟩
    simp only [onOpacityProperty, forward_proxy]
    cases n with
    | none => rfl
    | some name =>
      dsimp only
      cases o.fOpacityMap.find name <;> rfl
  | onTextProperty n c =>
    cases n with
    | none => simp [Event.textNamed] at hsafe
    | some name =>
      refine ⟨_, rfl, ?_⟩
      simp only [forward_proxy]
      cases o.fTextMap.find name <;> rfl
  | onTransformProperty n c => exact ⟨_, rfl, forward_proxy o _⟩
  | onEnterNode n ty => exact ⟨_, rfl, forward_proxy o _⟩
  | onLeavingNode n ty => exact ⟨_, rfl, forward_proxy o _⟩

theorem traverse_proxy (evs : List Event) (o : SlottablePropertyObserver)
    (hsafe : ∀ e ∈ evs, e.textNamed = true) :
    ∃ o', o.traverse evs = some o' ∧ o'.fProxy = o.fProxy.map (· ++ evs) := by
  induction evs generalizing o with
  | nil => exact ⟨o, rfl, by cases o.fProxy <;> simp⟩
  | cons e es ih =>
    obtain ⟨o₁, hd, hp₁⟩ := dispatch_proxy o e (hsafe e (List.mem_cons_self e es))
    obtain ⟨o₂, ht, hp₂⟩ := ih o₁ (fun e' he' => hsafe e' (List.mem_cons_of_mem e he'))
    refine ⟨o₂, by simp [traverse, hd, ht], ?_⟩
    rw [hp₂, hp₁]
    cases o.fProxy <;> simp

/-- C17: delivering a text property with a null node name to the slot observer does not
complete, so the wrapped observer does not receive that event or any later one; this is so
for the pass `unnamedText` delivered to the observer of `sampleSlots` wrapping an observer
that has received nothing.  For every pass without such an event the slot observer completes
and the wrapped observer has received, after what it had received before, exactly the events
of the pass with their arguments, in order, whether or not a name is a slot. -/
theorem forwarding_stops_at_unnamed_text :
    ((new sampleSlots (some [])).traverse unnamedText).isNone = true ∧
      ∀ (o : SlottablePropertyObserver) (received evs : List Event),
        o.fProxy = some received → (∀ e ∈ evs, e.textNamed = true) →
        ∃ o', o.traverse evs = some o' ∧ o'.fProxy = some (received ++ evs) := by
  refine ⟨rfl, fun o received evs hp hsafe => ?_⟩
  obtain ⟨o', ht, hp'⟩ := traverse_proxy evs o hsafe
  exact ⟨o', ht, by rw [hp', hp]; rfl⟩

/-- C20: called with a null node name, `onColorProperty` and `onOpacityProperty` look nothing
up, capture nothing and forward the event to the wrapped observer; `onTextProperty` has no
such test and converts the null name for the lookup, so it does not complete, captures
nothing and forwards nothing. -/
theorem onTextProperty_faults_on_null_name (o : SlottablePropertyObserver) (t : LazyHandle) :
    o.onTextProperty none t = none ∧
      o.onColorProperty none t = o.forward (Event.onColorProperty none t) ∧
      o.onOpacityProperty none t = o.forward (Event.onOpacityProperty none t) ∧
      (o.forward (Event.onColorProperty none t)).fColorMap = o.fColorMap ∧
      (o.forward (Event.onOpacityProperty none t)).fOpacityMap = o.fOpacityMap :=
  ⟨rfl, rfl, rfl, (SlotManager.forward_maps o _).1, (SlotManager.forward_maps o _).2.1⟩

end SlottablePropertyObserver

/-! ## The capture-map invariant -/

namespace CustomPropertyManager

theorem modify_entries_nonempty (pm : PropMap) (key : PropKey) (f : PropGroup → PropGroup)
    (hf : ∀ g, f g ≠ []) (h : ∀ entry ∈ pm, entry.2 ≠ []) :
    ∀ entry ∈ pm.modify key f, entry.2 ≠ [] := by
  induction pm with
  | nil =>
    intro entry he
    simp only [PropMap.modify, List.mem_singleton] at he
    subst he
    exact hf []
  | cons kv rest ih =>
    obtain ⟨k, g⟩ := kv
    have hrest : ∀ entry ∈ rest, entry.2 ≠ [] := fun entry he =>
      h entry (List.mem_cons_of_mem _ he)
    intro entry he
    by_cases hk : k = key
    · simp only [PropMap.modify, hk, if_true, List.mem_cons] at he
      rcases he with he | he
      · subst he
        exact hf g
      · exact hrest entry he
    · simp only [PropMap.modify, hk, if_false, List.mem_cons] at he
      rcases he with he | he
      · subst he
        exact h (k, g) (List.mem_cons_self _ _)
      · exact ih hrest entry he

theorem find_mem (pm : PropMap) (key : PropKey) (g : PropGroup) (h : pm.find key = some g) :
    (key, g) ∈ pm := by
  induction pm with
  | nil => simp [PropMap.find] at h
  | cons kv rest ih =>
    obtain ⟨k, g'⟩ := kv
    by_cases hk : k = key
    · simp only [PropMap.find, hk, if_true, Option.some.injEq] at h
      rw [hk, h]
      exact List.mem_cons_self _ _
    · simp only [PropMap.find, hk, if_false] at h
      exact List.mem_cons_of_mem _ (ih h)

theorem getProps_foldl (container : PropMap) (acc : List PropKey)
    (h : ∀ entry ∈ container, entry.2 ≠ []) :
    container.foldl
        (fun props prop_list =>
          props.bind fun props =>
            if prop_list.2.isEmpty then none else some (props ++ [prop_list.1]))
        (some acc) = some (acc ++ container.keys) := by
  induction container generalizing acc with
  | nil => simp [PropMap.keys]
  | cons kv rest ih =>
    have hkv : kv.2 ≠ [] := h kv (List.mem_cons_self _ _)
    have hrest : ∀ entry ∈ rest, entry.2 ≠ [] := fun entry he =>
      h entry (List.mem_cons_of_mem _ he)
    have hstep : ((some acc).bind fun props =>
        if kv.2.isEmpty then none else some (props ++ [kv.1])) = some (acc ++ [kv.1]) := by
      simp [List.isEmpty_iff, hkv]
    simp only [List.foldl_cons]
    rw [hstep, ih (acc ++ [kv.1]) hrest]
    simp [PropMap.keys]

theorem getProps_of_nonempty (container : PropMap) (h : ∀ entry ∈ container, entry.2 ≠ []) :
    getProps container = some container.keys := by
  have := getProps_foldl container [] h
  simpa [getProps] using this

theorem get_isSome {V : Type} [Inhabited V] (key : PropKey) (container : PropMap)
    (s : HandleStore V) (h : ∀ entry ∈ container, entry.2 ≠ []) :
    (get key container s).isSome = true := by
  cases hf : container.find key with
  | none => simp [get, hf]
  | some g =>
    cases g with
    | nil => exact absurd rfl (h _ (find_mem container key [] hf))
    | cons front rest => simp [get, hf]

theorem dispatch_populated (m m' : CustomPropertyManager) (e : Event)
    (hd : PropertyInterceptor.dispatch m e = some m') (hinv : m.Populated) : m'.Populated := by
  intro k
  cases hp : e.property? with
  | none =>
    obtain ⟨m₁, hd', _, _, hmaps⟩ := PropertyInterceptor.dispatch_of_node hp m
    rw [hd, Option.some.injEq] at hd'
    subst hd'
    rw [hmaps k]
    exact hinv k
  | some t =>
    obtain ⟨k', name, c⟩ := t
    rw [PropertyInterceptor.dispatch_of_property hp m] at hd
    obtain ⟨hother, hself⟩ := deliver_maps k' m m' name c hd
    by_cases hkk : k = k'
    · subst hkk
      rcases hself with hsame | ⟨key, hpush⟩
      · rw [hsame]
        exact hinv k
      · rw [hpush]
        exact ⟨modify_entries_nonempty _ key _ (fun g => by simp) (hinv k).1,
          PropMap.nodup_keys_modify _ _ _ (hinv k).2⟩
    · rw [hother k hkk]
      exact hinv k

theorem perform_populated (m m' : CustomPropertyManager) (sc sc' : Scene) (c : ManagerCall)
    (h : m.perform sc c = some (m', sc')) (hinv : m.Populated) : m'.Populated := by
  cases c with
  | observe e =>
    simp only [perform, Option.map_eq_some'] at h
    obtain ⟨m₁, hd, heq⟩ := h
    have hm : m₁ = m' := (Prod.mk.inj heq).1
    subst hm
    exact dispatch_populated m m₁ e hd hinv
  | setColor key v =>
    simp only [perform, Option.some.injEq, setColor] at h
    rw [← (Prod.mk.inj h).1]
    exact hinv
  | setOpacity key v =>
    simp only [perform, Option.some.injEq, setOpacity] at h
    rw [← (Prod.mk.inj h).1]
    exact hinv
  | setTransform key v =>
    simp only [perform, Option.some.injEq, setTransform] at h
    rw [← (Prod.mk.inj h).1]
    exact hinv
  | setText key v =>
    simp only [perform, Option.some.injEq, setText] at h
    rw [← (Prod.mk.inj h).1]
    exact hinv
  | _ =>
    simp only [perform, Option.map_eq_some'] at h
    obtain ⟨_, _, heq⟩ := h
    rw [← (Prod.mk.inj heq).1]
    exact hinv

theorem dispatch_some_of_named (m : CustomPropertyManager) (e : Event)
    (hnamed : e.named = true) : ∃ m', PropertyInterceptor.dispatch m e = some m' := by
  cases hp : e.property? with
  | none =>
    obtain ⟨m', hd, _⟩ := PropertyInterceptor.dispatch_of_node hp m
    exact ⟨m', hd⟩
  | some t =>
    obtain ⟨k, name, c⟩ := t
    cases name with
    | none => simp [Event.named, hp] at hnamed
    | some n =>
      obtain ⟨m', hd, _⟩ := PropertyInterceptor.deliver_some k m n c
      exact ⟨m', by rw [PropertyInterceptor.dispatch_of_property hp m]; exact hd⟩

theorem perform_some (m : CustomPropertyManager) (sc : Scene) (c : ManagerCall)
    (hinv : m.Populated) (hnamed : c.named = true) : ∃ r, m.perform sc c = some r := by
  have hget : ∀ {V : Type} [Inhabited V] (key : PropKey) (k : PropKind) (s : HandleStore V),
      ∃ r, get key (k.propMap m) s = some r := fun key k s =>
    Option.isSome_iff_exists.mp (get_isSome key _ s (hinv k).1)
  cases c with
  | observe e =>
    obtain ⟨m', hd⟩ := dispatch_some_of_named m e hnamed
    exact ⟨(m', sc), by simp [perform, hd]⟩
  | getColorProps =>
    have hp : getProps m.fColorMap = some m.fColorMap.keys :=
      getProps_of_nonempty m.fColorMap (hinv PropKind.color).1
    exact ⟨(m, sc), by simp [perform, getColorProps, hp]⟩
  | getOpacityProps =>
    have hp : getProps m.fOpacityMap = some m.fOpacityMap.keys :=
      getProps_of_nonempty m.fOpacityMap (hinv PropKind.opacity).1
    exact ⟨(m, sc), by simp [perform, getOpacityProps, hp]⟩
  | getTransformProps =>
    have hp : getProps m.fTransformMap = some m.fTransformMap.keys :=
      getProps_of_nonempty m.fTransformMap (hinv PropKind.transform).1
    exact ⟨(m, sc), by simp [perform, getTransformProps, hp]⟩
  | getTextProps =>
    have hp : getProps m.fTextMap = some m.fTextMap.keys :=
      getProps_of_nonempty m.fTextMap (hinv PropKind.text).1
    exact ⟨(m, sc), by simp [perform, getTextProps, hp]⟩
  | getColor key =>
    obtain ⟨r, hr⟩ := hget key PropKind.color sc.color
    simp only [PropKind.propMap] at hr
    exact ⟨(m, { sc with color := r.2 }), by simp [perform, getColor, hr]⟩
  | getOpacity key =>
    obtain ⟨r, hr⟩ := hget key PropKind.opacity sc.opacity
    simp only [PropKind.propMap] at hr
    exact ⟨(m, { sc with opacity := r.2 }), by simp [perform, getOpacity, hr]⟩
  | getTransform key =>
    obtain ⟨r, hr⟩ := hget key PropKind.transform sc.transform
    simp only [PropKind.propMap] at hr
    exact ⟨(m, { sc with transform := r.2 }), by simp [perform, getTransform, hr]⟩
  | getText key =>
    obtain ⟨r, hr⟩ := hget key PropKind.text sc.text
    simp only [PropKind.propMap] at hr
    exact ⟨(m, { sc with text := r.2 }), by simp [perform, getText, hr]⟩
  | setColor key v => exact ⟨_, rfl⟩
  | setOpacity key v => exact ⟨_, rfl⟩
  | setTransform key v => exact ⟨_, rfl⟩
  | setText key v => exact ⟨_, rfl⟩

theorem performAll_populated (calls : List ManagerCall) (m m' : CustomPropertyManager)
    (sc sc' : Scene) (h : m.performAll sc calls = some (m', sc')) (hinv : m.Populated) :
    m'.Populated := by
  induction calls generalizing m sc with
  | nil =>
    simp only [performAll, Option.some.injEq] at h
    rw [← (Prod.mk.inj h).1]
    exact hinv
  | cons c cs ih =>
    simp only [performAll] at h
    cases hp : m.perform sc c with
    | none => simp [hp] at h
    | some r =>
      rw [hp, Option.some_bind] at h
      exact ih r.1 r.2 h (perform_populated m r.1 sc r.2 c hp hinv)

theorem performAll_some (calls : List ManagerCall) (m : CustomPropertyManager) (sc : Scene)
    (hinv : m.Populated) (hnamed : ∀ c ∈ calls, c.named = true) :
    ∃ m' sc', m.performAll sc calls = some (m', sc') := by
  induction calls generalizing m sc with
  | nil => exact ⟨m, sc, rfl⟩
  | cons c cs ih =>
    obtain ⟨r, hr⟩ := perform_some m sc c hinv (hnamed c (List.mem_cons_self c cs))
    obtain ⟨m', sc', h⟩ := ih r.1 r.2 (perform_populated m r.1 sc r.2 c hr hinv)
      (fun c' hc' => hnamed c' (List.mem_cons_of_mem c hc'))
    exact ⟨m', sc', by simp [performAll, hr, h]⟩

theorem new_populated (mode : Mode) (prefixp : Option Str) : (new mode prefixp).Populated := by
  intro k
  cases k <;> exact ⟨fun entry he => by simp [PropKind.propMap, new] at he, List.nodup_nil⟩

/-- C18: start from a new manager and make any sequence of observer callbacks and of
getter, setter and key-listing calls.  If no property callback has a null node name the whole
sequence completes.  In every manager so reached no entry of any of the four capture maps has
an empty handle list; hence each key listing passes its assertion and returns the keys of its
map, each key once, and each getter is defined for every key. -/
theorem capture_groups_never_empty (mode : Mode) (prefixp : Option Str) (sc : Scene)
    (calls : List ManagerCall) :
    ((∀ c ∈ calls, c.named = true) →
        ∃ m sc', (new mode prefixp).performAll sc calls = some (m, sc')) ∧
      ∀ m sc', (new mode prefixp).performAll sc calls = some (m, sc') →
        (∀ k : PropKind, ∀ entry ∈ k.propMap m, entry.2 ≠ []) ∧
          (m.getColorProps = some m.fColorMap.keys ∧
            m.getOpacityProps = some m.fOpacityMap.keys ∧
            m.getTransformProps = some m.fTransformMap.keys ∧
            m.getTextProps = some m.fTextMap.keys) ∧
          (∀ k : PropKind, (k.propMap m).keys.Nodup) ∧
          ∀ key, (m.getColor key sc').isSome = true ∧ (m.getOpacity key sc').isSome = true ∧
            (m.getTransform key sc').isSome = true ∧ (m.getText key sc').isSome = true := by
  refine ⟨performAll_some calls _ sc (new_populated mode prefixp), fun m sc' h => ?_⟩
  have hinv := performAll_populated calls _ m sc sc' h (new_populated mode prefixp)
  refine ⟨fun k => (hinv k).1, ⟨?_, ?_, ?_, ?_⟩, fun k => (hinv k).2, fun key => ⟨?_, ?_, ?_, ?_⟩⟩
  · exact getProps_of_nonempty _ (hinv PropKind.color).1
  · exact getProps_of_nonempty _ (hinv PropKind.opacity).1
  · exact getProps_of_nonempty _ (hinv PropKind.transform).1
  · exact getProps_of_nonempty _ (hinv PropKind.text).1
  · have := get_isSome key m.fColorMap sc'.color (hinv PropKind.color).1
    simpa [getColor] using this
  · have := get_isSome key m.fOpacityMap sc'.opacity (hinv PropKind.opacity).1
    simpa [getOpacity] using this
  · have := get_isSome key m.fTransformMap sc'.transform (hinv PropKind.transform).1
    simpa [getTransform] using this
  · have := get_isSome key m.fTextMap sc'.text (hinv PropKind.text).1
    simpa [getText] using this

/-- C18 at a concrete input: the session `fillSession` completes. -/
theorem capture_groups_never_empty_witness :
    ∃ m sc', (new Mode.kCollapseProperties none).performAll sampleScene fillSession =
      some (m, sc') :=
  (capture_groups_never_empty Mode.kCollapseProperties none sampleScene fillSession).1
    (by decide)

end CustomPropertyManager

/-! ## The node path as a joined list of names -/

namespace CustomPropertyManager.PropertyInterceptor

theorem intersperse_append_singleton (sep s : Str) (l : List Str) (hl : l ≠ []) :
    (l ++ [s]).intersperse sep = l.intersperse sep ++ [sep, s] := by
  induction l with
  | nil => exact absurd rfl hl
  | cons a t ih =>
    cases t with
    | nil => rfl
    | cons b t' =>
      have := ih (List.cons_ne_nil b t')
      simp only [List.cons_append, List.intersperse_cons₂] at this ⊢
      rw [this]

theorem intercalate_append_singleton (sep s : Str) (l : List Str) (hl : l ≠ []) :
    sep.intercalate (l ++ [s]) = sep.intercalate l ++ sep ++ s := by
  simp [List.intercalate, intersperse_append_singleton sep s l hl]

theorem pathOfOpen_eq_intercalate (xs : List Str) (hroot : xs.getLast? ≠ some []) :
    pathOfOpen [] (xs.map some) = ".".toList.intercalate xs.reverse := by
  induction xs with
  | nil => rfl
  | cons s below ih =>
    cases below with
    | nil => simp [pathOfOpen, pushName, List.intercalate]
    | cons b bs =>
      have hbelow : (b :: bs).getLast? ≠ some [] := by simpa using hroot
      have hne := pathOfOpen_ne_nil (b :: bs) (List.cons_ne_nil b bs) hbelow
      have hrev : (b :: bs).reverse ≠ [] := fun h =>
        List.cons_ne_nil b bs (List.reverse_eq_nil_iff.mp h)
      rw [List.reverse_cons, pathOfOpen_cons_some, if_neg hne, ih hbelow,
        intercalate_append_singleton _ _ _ hrev, List.append_assoc]
      rfl

/-- C19 (amended): take a well-nested pass delivered to a new manager and a prefix `pre` of
it after which the outermost named open node, when there is one, is not named with the empty
string.  Then, whenever the manager reaches the end of `pre` (it does when no property
callback of the pass has a null name), the node path at that moment is the names of the open
nodes, outermost first, joined by `.` (a node entered with a null name has no name), and in
non-collapse mode the key of an accepted property at that moment is this joined path followed
by the suffix of its kind. -/
theorem path_is_joined_open_names (mode : Mode) (prefixp : Option Str)
    (evs pre rest : List Event) (hnest : wellNested evs = true) (hsplit : evs = pre ++ rest)
    (hroot : rootNamed ((ancestorsAfter pre).getD []) = true) :
    ((∀ e ∈ pre, e.named = true) → ∃ m, traverse (new mode prefixp) pre = some m) ∧
      ∀ m, traverse (new mode prefixp) pre = some m →
        ∃ names, ancestorsAfter pre = some names ∧
          m.fCurrentNode = ".".toList.intercalate names ∧
          (mode ≠ Mode.kCollapseProperties → ∀ (k : PropKind) (n : Str),
            SkStrStartsWith n m.fPrefix = true →
              m.acceptKey (some n) k.suffix =
                some (".".toList.intercalate names ++ k.suffix)) := by
  refine ⟨fun hnamed => traverse_some_of_named mode prefixp evs pre rest hnest hsplit hnamed,
    fun m ht => ?_⟩
  obtain ⟨open_, ho, hpath, hmode, _⟩ := path_after mode prefixp evs pre rest m hnest hsplit ht
  have ha : ancestorsAfter pre = some (ancestorNames open_) := by
    simp [ancestorsAfter, ho]
  rw [ha] at hroot
  simp only [Option.getD_some, ancestorNames_eq, rootNamed, List.head?_reverse,
    decide_eq_true_eq] at hroot
  have hjoin : m.fCurrentNode = ".".toList.intercalate (ancestorNames open_) := by
    rw [hpath, pathOfOpen_eq_intercalate _ hroot, ancestorNames_eq]
  refine ⟨ancestorNames open_, ha, hjoin, fun hmode' k n hacc => ?_⟩
  have hm : ¬ m.fMode = Mode.kCollapseProperties := by
    rw [hmode]
    exact hmode'
  simp [acceptKey, hacc, hm, hjoin]

/-- C19 (amended) at a concrete input: after the three enters of `deepNodes` the open nodes
are `A`, a node named with the empty string, and `B.c`; the manager is `deepInner`, the node
path is `A..B.c`, the three names joined by `.` in the order of entering, and the key of a
colour named `$x` is `A..B.c.Color`. -/
theorem path_is_joined_open_names_witness :
    traverse (new Mode.kNamespacedProperties none) (deepNodes.take 3) = some deepInner ∧
      ancestorsAfter (deepNodes.take 3) = some ["A".toList, [], "B.c".toList] ∧
      deepInner.fCurrentNode = "A..B.c".toList ∧
      deepInner.acceptKey (some "$x".toList) PropKind.color.suffix =
        some "A..B.c.Color".toList ∧
      ∃ names, ancestorsAfter (deepNodes.take 3) = some names ∧
        deepInner.fCurrentNode = ".".toList.intercalate names ∧
        (Mode.kNamespacedProperties ≠ Mode.kCollapseProperties →
          ∀ (k : PropKind) (n : Str), SkStrStartsWith n deepInner.fPrefix = true →
            deepInner.acceptKey (some n) k.suffix =
              some (".".toList.intercalate names ++ k.suffix)) :=
  ⟨by decide, by decide, by decide, by decide,
    (path_is_joined_open_names Mode.kNamespacedProperties none deepNodes (deepNodes.take 3)
      (deepNodes.drop 3) (by decide) rfl (by decide)).2 deepInner (by decide)⟩

/-- C19 as stated fails for a node whose name is the empty string: in the well-nested pass
`emptyNamedNode`, after entering the node named with the empty string and then `B`, the open
names are the empty string and `B`, which join to `.B`, but the node path is `B`. -/
theorem path_drops_empty_name :
    wellNested emptyNamedNode = true ∧
      ancestorsAfter (emptyNamedNode.take 2) = some [[], "B".toList] ∧
      ".".toList.intercalate [[], "B".toList] = ".B".toList ∧
      (traverse (new Mode.kNamespacedProperties none) (emptyNamedNode.take 2)).map
          (fun m => m.fCurrentNode) = some "B".toList := by
  refine ⟨by decide, by decide, by decide, by decide⟩

end CustomPropertyManager.PropertyInterceptor

end SkottieUtils
